import Mathlib

/-!
# Verification of `imageproc`'s computational geometry module (`src/geometry.rs`)

A shallow embedding of the four functions of `geometry.rs` — `arc_length`,
`approx_poly_dp`, `convex_hull` and (where statable) `min_area_rect` — together
with proofs of the behavioural properties claimed for them.

## Modelling conventions

* `Point<T>` with integer coordinates is modelled as `Pt` with `ℤ` fields.
  The claims under verification restrict coordinates to the safe range of the
  `to_i32` cast used by the orientation test, in which range `to_i32` is the
  identity, so the cast is dropped.
* `f64` values computed from integer inputs are modelled by their exact real
  values.  The only `f64` quantities the control flow ever branches on are
  comparisons of Euclidean distances `√d` with equal or comparable radicands,
  and comparisons of point-to-line distances `|c|/√L` sharing one denominator
  `√L`; both are equivalent to exact integer/rational comparisons because
  `√` and `x ↦ x/√L` are strictly monotone.  The bridging lemmas
  `sqrt_lt_sqrt_iff_of_int` and `absDiv_sqrt_gt_iff` record this equivalence;
  the executable definitions use the integer forms.
* Rust's stable `sort_by` is modelled by `List.insertionSort` (a stable sort)
  over the source's comparator.  The comparator never returns `Equal`; on the
  pairs where it is inconsistent (`Greater` both ways) the two points compared
  are identical values, so any stable sort produces the same list.
* The `Vec` stack of the Graham scan is modelled by a `List` whose *head* is
  the top of the stack (the source pushes and pops at the end of its `Vec`);
  the hull returned by `convex_hull` is the stack read bottom-first, i.e. the
  reversal of that list.
* Rust panics (the `epsilon` guard of `approx_poly_dp`, and the index
  underflow it hits on an empty curve) are modelled by `Option.none`.
-/

namespace Imageproc

/-- `Point<T>` of the source, at integer coordinates (`crate::point::Point`). -/
structure Pt where
  x : ℤ
  y : ℤ
deriving DecidableEq, Repr, Inhabited

/-- The `Orientation` enum of `geometry.rs`. -/
inductive Orientation where
  | Collinear
  | Clockwise
  | CounterClockwise
deriving DecidableEq, Repr

/-- The signed value `(q.y - p.y) * (r.x - q.x) - (q.x - p.x) * (r.y - q.y)`
computed by `orientation` in `geometry.rs`. -/
def val (p q r : Pt) : ℤ :=
  (q.y - p.y) * (r.x - q.x) - (q.x - p.x) * (r.y - q.y)

/-- `orientation` of `geometry.rs`: `val = 0` is `Collinear`, `val > 0` is
`Clockwise`, `val < 0` is `CounterClockwise`. -/
def orientation (p q r : Pt) : Orientation :=
  if val p q r = 0 then Orientation.Collinear
  else if 0 < val p q r then Orientation.Clockwise
  else Orientation.CounterClockwise

/-- Squared Euclidean distance.  The source's `distance` returns the `f64`
value `√(distSq a b)`; the source only ever *compares* two such distances from
a common base point, which `√`'s strict monotonicity reduces to comparing the
integer radicands (lemma `sqrt_lt_sqrt_iff_of_int`). -/
def distSq (a b : Pt) : ℤ :=
  (a.x - b.x) ^ 2 + (a.y - b.y) ^ 2

/-- The Euclidean distance `crate::point::distance` as an exact real. -/
noncomputable def distance (a b : Pt) : ℝ :=
  Real.sqrt ((distSq a b : ℤ) : ℝ)

/-- `arc_length` of `geometry.rs`: the sum of the distances of consecutive
pairs (`arc.windows(2)` is modelled by `arc.zip arc.tail`), plus — only when
the arc has more than 2 points and `closed` is set — the distance between the
first and the last point. -/
noncomputable def arc_length (arc : List Pt) (closed : Bool) : ℝ :=
  let base := ((arc.zip arc.tail).map fun pq => distance pq.1 pq.2).sum
  if 2 < arc.length ∧ closed = true then
    base + distance arc.headI arc.getLastI
  else base

end Imageproc

namespace Imageproc

/-! ## `approx_poly_dp` (Douglas–Peucker)

The source computes, for each interior point, its `f64` perpendicular distance
`|lineVal| / √lineLen2` from the chord through the first and last point of the
current range, takes the running maximum (strict improvement, so the first
maximiser wins), and recurses when that maximum exceeds `epsilon`.  Within one
scan the denominator `√lineLen2` is one fixed value, so the running-maximum
comparisons are equivalent to comparing `|lineVal|`, and the `dmax > epsilon`
test is equivalent to `lineVal² > epsilon² · lineLen2` (lemma
`absDiv_sqrt_gt_iff`).  The executable model below carries `|lineVal|`
(i.e. `dmax·√lineLen2`) in place of `dmax`. -/

/-- Numerator of the perpendicular distance from `q` to the line through
`p0` and `p1` (modelled from the spec: `Line` "defined by two `Point<f64>`,
used only to compute perpendicular distance from a third point"; the crate's
`Line::from_points`/`distance_from_point` are outside `geometry.rs`).  The
distance itself is `|lineVal p0 p1 q| / √(lineLen2 p0 p1)`. -/
def lineVal (p0 p1 q : Pt) : ℤ :=
  (p1.y - p0.y) * (q.x - p0.x) - (p1.x - p0.x) * (q.y - p0.y)

/-- Squared length of the chord `p0 p1`, the denominator's radicand of the
perpendicular distance. -/
def lineLen2 (p0 p1 : Pt) : ℤ :=
  (p1.y - p0.y) ^ 2 + (p1.x - p0.x) ^ 2

/-- The maximum-distance scan of `approx_poly_dp` (`for (i, point) in
curve.iter().enumerate().skip(1)`), maximising `|lineVal|` with strict
improvement, so the first maximiser wins.  `i` is the index of the head of
`l` in the full curve; the accumulator holds `(index, |lineVal| there)`,
starting from `(0, 0)` (the source's `index = 0`, `dmax = 0.0`). -/
def farthest (p0 p1 : Pt) : ℕ → List Pt → ℕ × ℕ → ℕ × ℕ
  | _, [], best => best
  | i, q :: rest, best =>
      farthest p0 p1 (i + 1) rest
        (if best.2 < (lineVal p0 p1 q).natAbs then (i, (lineVal p0 p1 q).natAbs) else best)

theorem farthest_spec (p0 p1 : Pt) :
    ∀ (l : List Pt) (i : ℕ) (best : ℕ × ℕ),
      farthest p0 p1 i l best = best ∨
      ∃ k : Fin l.length, (farthest p0 p1 i l best).1 = i + (k : ℕ) ∧
        (farthest p0 p1 i l best).2 = (lineVal p0 p1 (l.get k)).natAbs ∧
        best.2 < (farthest p0 p1 i l best).2 := by
  intro l
  induction l with
  | nil => intro i best; exact Or.inl rfl
  | cons q rest ih =>
      intro i best
      by_cases h : best.2 < (lineVal p0 p1 q).natAbs
      · have hstep : farthest p0 p1 i (q :: rest) best
            = farthest p0 p1 (i + 1) rest (i, (lineVal p0 p1 q).natAbs) := by
          simp [farthest, h]
        rcases ih (i + 1) (i, (lineVal p0 p1 q).natAbs) with h1 | h1
        · refine Or.inr ⟨⟨0, by simp⟩, ?_, ?_, ?_⟩ <;>
            simp [hstep, h1, h]
        · obtain ⟨k, hk1, hk2, hk3⟩ := h1
          refine Or.inr ⟨⟨(k : ℕ) + 1, by simp [Nat.succ_lt_succ k.isLt]⟩, ?_, ?_, ?_⟩
          · rw [hstep, hk1]; simp only [Fin.val_mk]; omega
          · rw [hstep, hk2]; simp
          · rw [hstep]; exact lt_trans h hk3
      · have hstep : farthest p0 p1 i (q :: rest) best
            = farthest p0 p1 (i + 1) rest best := by
          simp [farthest, h]
        rcases ih (i + 1) best with h1 | h1
        · exact Or.inl (by rw [hstep, h1])
        · obtain ⟨k, hk1, hk2, hk3⟩ := h1
          refine Or.inr ⟨⟨(k : ℕ) + 1, by simp [Nat.succ_lt_succ k.isLt]⟩, ?_, ?_, ?_⟩
          · rw [hstep, hk1]; simp only [Fin.val_mk]; omega
          · rw [hstep, hk2]; simp
          · rw [hstep]; exact hk3

/-- The chord's own endpoint has perpendicular distance `0` from the chord. -/
theorem lineVal_last (p0 p1 : Pt) : lineVal p0 p1 p1 = 0 := by
  simp [lineVal]; ring

/-- The split index returned by the scan, when its maximum is nonzero, is an
interior index: at least `1`, and strictly before the last index of the range. -/
theorem farthest_interior (c0 : Pt) (rest : List Pt)
    (r : ℕ × ℕ) (hr : r = farthest c0 ((c0 :: rest).getLast (by simp)) 1 rest (0, 0))
    (hm : 0 < r.2) :
    1 ≤ r.1 ∧ r.1 + 1 < (c0 :: rest).length := by
  rcases farthest_spec c0 ((c0 :: rest).getLast (by simp)) rest 1 (0, 0) with h | h
  · rw [hr, h] at hm; exact absurd hm (by simp)
  · obtain ⟨k, hk1, hk2, hk3⟩ := h
    rw [← hr] at hk1 hk2 hk3
    constructor
    · omega
    · -- r.1 = 1 + k with k < rest.length; equality k = rest.length - 1 would make
      -- the maximiser the chord's endpoint, whose lineVal is 0.
      simp only [List.length_cons]
      have hklt : (k : ℕ) < rest.length := k.isLt
      by_cases heq : (k : ℕ) = rest.length - 1
      · exfalso
        have hrest : rest ≠ [] := List.ne_nil_of_length_pos (by omega)
        have hlastmem : (c0 :: rest).getLast (by simp) = rest.getLast hrest := by
          cases rest with
          | nil => exact absurd rfl hrest
          | cons a l => simp [List.getLast_cons]
        have hget : rest.get k = rest.getLast hrest := by
          rw [List.getLast_eq_getElem, List.get_eq_getElem]
          congr 1
        rw [hget, hlastmem, lineVal_last] at hk2
        rw [hk2] at hm
        simp at hm
      · omega

/-- The recursive core of `approx_poly_dp`, covering the `closed = false` form
in which the source always calls itself.  `[]` yields `none` (the source's
index underflow on an empty curve is a panic).  When the maximum scaled
distance `|lineVal|` satisfies `dmax > epsilon`, i.e. `|lineVal|² > eps²·L`,
the curve is split at the maximiser (`partial1.pop()` then concatenation is
`dropLast` then append); otherwise the range collapses to its endpoints. -/
def approxAux (eps : ℚ) (curve : List Pt) : Option (List Pt) :=
  match h : curve with
  | [] => none
  | c0 :: rest =>
      let lst := (c0 :: rest).getLast (by simp)
      let r := farthest c0 lst 1 rest (0, 0)
      if hguard : (eps ^ 2) * ((lineLen2 c0 lst : ℤ) : ℚ) < ((r.2 : ℕ) : ℚ) ^ 2 then
        match approxAux eps ((c0 :: rest).take (r.1 + 1)),
              approxAux eps ((c0 :: rest).drop r.1) with
        | some part1, some part2 => some (part1.dropLast ++ part2)
        | _, _ => none
      else
        some [c0, lst]
termination_by curve.length
decreasing_by
  · -- the `take` branch: r.1 + 1 < curve.length
    have h0 : (0 : ℤ) ≤ lineLen2 c0 lst := by
      unfold lineLen2; positivity
    have hL : (0 : ℚ) ≤ (eps ^ 2) * ((lineLen2 c0 lst : ℤ) : ℚ) := by
      have h1 : (0 : ℚ) ≤ ((lineLen2 c0 lst : ℤ) : ℚ) := by exact_mod_cast h0
      positivity
    have hm : 0 < r.2 := by
      by_contra hm0
      have h2 : r.2 = 0 := by omega
      rw [h2] at hguard
      norm_num at hguard
      exact absurd hguard (not_lt.mpr hL)
    have h3 := farthest_interior c0 rest r rfl hm
    have h4 : (farthest c0 ((c0 :: rest).getLast (by simp)) 1 rest (0, 0)).1 = r.1 := rfl
    simp only [List.length_cons] at h3
    simp only [h, List.length_take, List.length_cons]
    omega
  · -- the `drop` branch: 1 ≤ r.1
    have h0 : (0 : ℤ) ≤ lineLen2 c0 lst := by
      unfold lineLen2; positivity
    have hL : (0 : ℚ) ≤ (eps ^ 2) * ((lineLen2 c0 lst : ℤ) : ℚ) := by
      have h1 : (0 : ℚ) ≤ ((lineLen2 c0 lst : ℤ) : ℚ) := by exact_mod_cast h0
      positivity
    have hm : 0 < r.2 := by
      by_contra hm0
      have h2 : r.2 = 0 := by omega
      rw [h2] at hguard
      norm_num at hguard
      exact absurd hguard (not_lt.mpr hL)
    have h3 := farthest_interior c0 rest r rfl hm
    have h4 : (farthest c0 ((c0 :: rest).getLast (by simp)) 1 rest (0, 0)).1 = r.1 := rfl
    simp only [List.length_cons] at h3
    simp only [h, List.length_drop, List.length_cons]
    omega

/-- `approx_poly_dp` of `geometry.rs`.  `none` models a panic: the `epsilon
<= 0` guard, or the empty-curve index underflow.  The source pops the final
point of the assembled result when `closed` is set (recursive calls always
pass `closed = false`, so the pop happens once, at the top level). -/
def approx_poly_dp (curve : List Pt) (eps : ℚ) (closed : Bool) : Option (List Pt) :=
  if eps ≤ 0 then none
  else
    match approxAux eps curve with
    | none => none
    | some res => some (if closed then res.dropLast else res)

end Imageproc

namespace Imageproc

/-! ## `convex_hull` (Graham scan) -/

/-- The pivot-selection loop of `convex_hull`: starting from `(0, points[0])`
and scanning the remaining points left to right, keep the point with strictly
smaller `y`, ties broken by strictly smaller `x`.  Returns the position and
value of the selected start point. -/
def findStart : ℕ → ℕ × Pt → List Pt → ℕ × Pt
  | _, best, [] => best
  | i, best, p :: rest =>
      findStart (i + 1)
        (if p.y < best.2.y ∨ (p.y = best.2.y ∧ p.x < best.2.x) then (i, p) else best) rest

/-- `points.swap(0, start_point_pos)` followed by `points.remove(0)`: the list
with the element at `pos` removed and the original head put in its place. -/
def removeStart (l : List Pt) (pos : ℕ) : List Pt :=
  match l, pos with
  | [], _ => []
  | _ :: rest, 0 => rest
  | p0 :: rest, pos + 1 => rest.set pos p0

/-- The `sort_by` comparator of `convex_hull`: orientation of `(start, a, b)`,
collinear ties broken by distance from the start point (`Less` exactly when
`a` is strictly nearer; the source compares the `f64` distances, modelled by
their radicands, see `distSq`).  It never returns `Equal`. -/
def cmpPts (s0 a b : Pt) : Ordering :=
  match orientation s0 a b with
  | Orientation.Collinear =>
      if distSq s0 a < distSq s0 b then Ordering.lt else Ordering.gt
  | Orientation.Clockwise => Ordering.gt
  | Orientation.CounterClockwise => Ordering.lt

/-- The angular sort of `convex_hull`: Rust's stable `sort_by` under the
comparator `cmpPts s0`, modelled as a stable insertion sort. -/
def sortPoints (s0 : Pt) (l : List Pt) : List Pt :=
  List.insertionSort (fun a b => cmpPts s0 a b = Ordering.lt) l

/-- The `remaining_points` loop of `convex_hull` (the peekable iterator): of
each run of consecutive points collinear with the pivot, keep only the last
one — after the angular sort, the farthest.  Dead code in the source: the
stack scan that follows iterates over `points`, not over this value (see
claim C4). -/
def collinearCollapse (s0 : Pt) : List Pt → List Pt
  | [] => []
  | [p] => [p]
  | p :: q :: rest =>
      if orientation s0 p q = Orientation.Collinear then collinearCollapse s0 (q :: rest)
      else p :: collinearCollapse s0 (q :: rest)

/-- The pop loop of the Graham scan, on the stack with its top at the head:
while the stack holds more than one point and the turn (second-from-top, top,
candidate) is not strictly counterclockwise, pop the top. -/
def popWhile (p : Pt) : List Pt → List Pt
  | b :: a :: rest =>
      if orientation a b p ≠ Orientation.CounterClockwise then popWhile p (a :: rest)
      else b :: a :: rest
  | s => s

/-- One iteration of the scan loop of `convex_hull`: pop, then push `p`. -/
def scanStep (stack : List Pt) (p : Pt) : List Pt :=
  p :: popWhile p stack

/-- `convex_hull` of `geometry.rs` (Graham scan): empty input returns empty;
otherwise select the pivot, remove it, sort the rest angularly, and fold the
stack scan over the *sorted* list, starting from the one-element stack holding
the pivot.  (The source also computes `remaining_points`, modelled by
`collinearCollapse`, and then does not use it.)  The `Vec` stack grows at its
end; the model's stack grows at the head, so the returned hull is the final
stack reversed. -/
def convex_hull (points : List Pt) : List Pt :=
  match points with
  | [] => []
  | p0 :: rest =>
      let start := findStart 1 (0, p0) rest
      let sorted := sortPoints start.2 (removeStart (p0 :: rest) start.1)
      (sorted.foldl scanStep [start.2]).reverse

end Imageproc

namespace Imageproc

/-! ## Bridging lemmas: the exact-real reading of the `f64` comparisons -/

/-- Comparing two Euclidean distances `√a < √b` (the collinear tie-break of
`convex_hull`'s comparator) is comparing the integer radicands. -/
theorem sqrt_lt_sqrt_iff_of_int (a b : ℤ) (ha : 0 ≤ a) :
    Real.sqrt (a : ℝ) < Real.sqrt (b : ℝ) ↔ a < b := by
  rw [Real.sqrt_lt_sqrt_iff (by exact_mod_cast ha)]
  exact_mod_cast Iff.rfl

/-- The `dmax > epsilon` test of `approx_poly_dp`: with `dmax = |c|/√L`,
`L > 0` and `epsilon ≥ 0`, it is the integer-rational test `eps²·L < c²`. -/
theorem absDiv_sqrt_gt_iff (c L : ℤ) (hL : 0 < L) (eps : ℝ) (heps : 0 ≤ eps) :
    eps < |(c : ℝ)| / Real.sqrt (L : ℝ) ↔ eps ^ 2 * (L : ℝ) < (c : ℝ) ^ 2 := by
  have hLpos : (0 : ℝ) < (L : ℝ) := by exact_mod_cast hL
  have hsq : (0 : ℝ) < Real.sqrt (L : ℝ) := Real.sqrt_pos.mpr hLpos
  rw [lt_div_iff hsq]
  constructor
  · intro h
    have h2 : (eps * Real.sqrt (L : ℝ)) ^ 2 < |(c : ℝ)| ^ 2 := by
      apply pow_lt_pow_left h (by positivity)
      norm_num
    calc eps ^ 2 * (L : ℝ) = (eps * Real.sqrt (L : ℝ)) ^ 2 := by
          rw [mul_pow, Real.sq_sqrt hLpos.le]
      _ < |(c : ℝ)| ^ 2 := h2
      _ = (c : ℝ) ^ 2 := sq_abs _
  · intro h
    have h2 : (eps * Real.sqrt (L : ℝ)) ^ 2 < |(c : ℝ)| ^ 2 := by
      calc (eps * Real.sqrt (L : ℝ)) ^ 2 = eps ^ 2 * (L : ℝ) := by
            rw [mul_pow, Real.sq_sqrt hLpos.le]
        _ < (c : ℝ) ^ 2 := h
        _ = |(c : ℝ)| ^ 2 := (sq_abs _).symm
    have h3 : eps * Real.sqrt (L : ℝ) < |(c : ℝ)| :=
      lt_of_pow_lt_pow_left 2 (abs_nonneg _) h2
    exact h3

/-! ## The easy structural facts about `approx_poly_dp` -/

/-- On a two-point curve the scan sees only the chord's endpoint, whose
distance from the chord is `0`, so the range collapses to its endpoints. -/
theorem approxAux_pair (eps : ℚ) (a b : Pt) : approxAux eps [a, b] = some [a, b] := by
  rw [approxAux]
  have hfar2 : (farthest a b 1 [b] (0, 0)).2 = 0 := by
    simp [farthest, lineVal_last]
  have hL' : (0 : ℚ) ≤ ((lineLen2 a b : ℤ) : ℚ) := by
    have h0 : (0 : ℤ) ≤ lineLen2 a b := by unfold lineLen2; positivity
    exact_mod_cast h0
  have hng : ¬ ((eps ^ 2) * ((lineLen2 a b : ℤ) : ℚ)
      < (((farthest a b 1 [b] (0, 0)).2 : ℕ) : ℚ) ^ 2) := by
    rw [hfar2]
    push_neg
    norm_num
    positivity
  simp [-Prod.mk_zero_zero, hng]

end Imageproc

namespace Imageproc

/-- Every run of the recursive core on a nonempty curve succeeds and returns
at least two points: a collapsed range keeps both endpoints, and a merge of
two such results drops one duplicated junction point. -/
theorem approxAux_some (eps : ℚ) :
    ∀ (n : ℕ) (curve : List Pt), curve.length ≤ n → curve ≠ [] →
      ∃ l, approxAux eps curve = some l ∧ 2 ≤ l.length := by
  intro n
  induction n with
  | zero =>
      intro curve hlen hne
      cases curve with
      | nil => exact absurd rfl hne
      | cons a l => simp at hlen
  | succ n ih =>
      intro curve hlen hne
      cases curve with
      | nil => exact absurd rfl hne
      | cons c0 rest =>
        rw [approxAux]
        have hL' : (0 : ℚ) ≤ ((lineLen2 c0 ((c0 :: rest).getLast (by simp)) : ℤ) : ℚ) := by
          have h0 : (0 : ℤ) ≤ lineLen2 c0 ((c0 :: rest).getLast (by simp)) := by
            unfold lineLen2; positivity
          exact_mod_cast h0
        by_cases hg : (eps ^ 2) * ((lineLen2 c0 ((c0 :: rest).getLast (by simp)) : ℤ) : ℚ)
            < (((farthest c0 ((c0 :: rest).getLast (by simp)) 1 rest (0, 0)).2 : ℕ) : ℚ) ^ 2
        · have hm : 0 < (farthest c0 ((c0 :: rest).getLast (by simp)) 1 rest (0, 0)).2 := by
            by_contra h0
            have h2 : (farthest c0 ((c0 :: rest).getLast (by simp)) 1 rest (0, 0)).2 = 0 := by
              omega
            rw [h2] at hg
            norm_num at hg
            exact absurd hg (not_lt.mpr (mul_nonneg (by positivity) hL'))
          obtain ⟨hi1, hi2⟩ := farthest_interior c0 rest _ rfl hm
          set idx := (farthest c0 ((c0 :: rest).getLast (by simp)) 1 rest (0, 0)).1 with hidx
          have hlen' : (c0 :: rest).length = rest.length + 1 := by simp
          have htl : ((c0 :: rest).take (idx + 1)).length = idx + 1 := by
            simp only [List.length_take]
            omega
          have hdl : ((c0 :: rest).drop idx).length = rest.length + 1 - idx := by
            simp only [List.length_drop]
            omega
          obtain ⟨l1, hl1, hlen1⟩ := ih ((c0 :: rest).take (idx + 1))
            (by omega) (by
              apply List.ne_nil_of_length_pos
              omega)
          obtain ⟨l2, hl2, hlen2⟩ := ih ((c0 :: rest).drop idx)
            (by omega) (by
              apply List.ne_nil_of_length_pos
              omega)
          rw [dif_pos hg, hl1, hl2]
          refine ⟨l1.dropLast ++ l2, rfl, ?_⟩
          simp only [List.length_append, List.length_dropLast]
          omega
        · rw [dif_neg hg]
          exact ⟨[c0, (c0 :: rest).getLast (by simp)], rfl, by simp⟩

/-- C7.  `approx_poly_dp` fails (panics — modelled `none`) for every curve and
`closed` flag whenever `epsilon <= 0`, and succeeds on every curve of length
at least 2 whenever `epsilon > 0`. -/
theorem approx_poly_dp_fail_iff_eps (curve : List Pt) (eps : ℚ) (closed : Bool) :
    (eps ≤ 0 → approx_poly_dp curve eps closed = none) ∧
    (0 < eps → 2 ≤ curve.length → (approx_poly_dp curve eps closed).isSome = true) := by
  constructor
  · intro h
    simp [approx_poly_dp, h]
  · intro h hlen
    have hne : curve ≠ [] := by
      intro h0; rw [h0] at hlen; simp at hlen
    obtain ⟨l, hl, -⟩ := approxAux_some eps curve.length curve le_rfl hne
    simp [approx_poly_dp, not_le.mpr h, hl]

/-- Witness for C7 at concrete inputs: `epsilon = -1` panics, `epsilon = 1`
succeeds on a two-point curve. -/
theorem approx_poly_dp_fail_iff_eps_witness :
    approx_poly_dp [Pt.mk 0 0, Pt.mk 5 5] (-1) false = none ∧
    (approx_poly_dp [Pt.mk 0 0, Pt.mk 5 5] 1 true).isSome = true :=
  ⟨(approx_poly_dp_fail_iff_eps [Pt.mk 0 0, Pt.mk 5 5] (-1) false).1 (by norm_num),
   (approx_poly_dp_fail_iff_eps [Pt.mk 0 0, Pt.mk 5 5] 1 true).2 (by norm_num) (by decide)⟩

/-- C8.  Whenever the recursion guard of `approx_poly_dp` holds — the maximum
perpendicular distance exceeds `epsilon`, in scaled form `eps²·L < dmax²` —
the split index is strictly between the first and the last index of the
range, so both recursive calls run on strictly shorter subranges (this is the
fact `approxAux`'s termination proof consumes). -/
theorem approx_split_index_interior (eps : ℚ) (c0 : Pt) (rest : List Pt) :
    (eps ^ 2) * ((lineLen2 c0 ((c0 :: rest).getLast (by simp)) : ℤ) : ℚ)
        < (((farthest c0 ((c0 :: rest).getLast (by simp)) 1 rest (0, 0)).2 : ℕ) : ℚ) ^ 2 →
    1 ≤ (farthest c0 ((c0 :: rest).getLast (by simp)) 1 rest (0, 0)).1 ∧
      (farthest c0 ((c0 :: rest).getLast (by simp)) 1 rest (0, 0)).1 + 1
        < (c0 :: rest).length := by
  intro hg
  have hL' : (0 : ℚ) ≤ ((lineLen2 c0 ((c0 :: rest).getLast (by simp)) : ℤ) : ℚ) := by
    have h0 : (0 : ℤ) ≤ lineLen2 c0 ((c0 :: rest).getLast (by simp)) := by
      unfold lineLen2; positivity
    exact_mod_cast h0
  have hm : 0 < (farthest c0 ((c0 :: rest).getLast (by simp)) 1 rest (0, 0)).2 := by
    by_contra h0
    have h2 : (farthest c0 ((c0 :: rest).getLast (by simp)) 1 rest (0, 0)).2 = 0 := by omega
    rw [h2] at hg
    norm_num at hg
    exact absurd hg (not_lt.mpr (mul_nonneg (by positivity) hL'))
  exact farthest_interior c0 rest _ rfl hm

/-- Witness for C8: a concrete range whose maximum distance exceeds
`epsilon = 1`, with the split index interior. -/
theorem approx_split_index_interior_witness :
    1 ≤ (farthest (Pt.mk 0 0) ((Pt.mk 0 0 :: [Pt.mk 0 5, Pt.mk 10 0]).getLast (by simp))
          1 [Pt.mk 0 5, Pt.mk 10 0] (0, 0)).1 ∧
    (farthest (Pt.mk 0 0) ((Pt.mk 0 0 :: [Pt.mk 0 5, Pt.mk 10 0]).getLast (by simp))
          1 [Pt.mk 0 5, Pt.mk 10 0] (0, 0)).1 + 1
      < (Pt.mk 0 0 :: [Pt.mk 0 5, Pt.mk 10 0]).length :=
  approx_split_index_interior 1 (Pt.mk 0 0) [Pt.mk 0 5, Pt.mk 10 0] (by
    norm_num [farthest, lineVal, lineLen2, List.getLast])

/-- C10.  On a two-point curve with any positive `epsilon`, a `closed = true`
call returns exactly one point — the first point of the curve — because the
final point is popped from the assembled result. -/
theorem approx_closed_pair_single (a b : Pt) (eps : ℚ) (heps : 0 < eps) :
    approx_poly_dp [a, b] eps true = some [a] := by
  simp [approx_poly_dp, not_le.mpr heps, approxAux_pair]

/-- Witness for C10 at a concrete two-point curve. -/
theorem approx_closed_pair_single_witness :
    approx_poly_dp [Pt.mk 1 2, Pt.mk 7 3] (1 / 2) true = some [Pt.mk 1 2] :=
  approx_closed_pair_single (Pt.mk 1 2) (Pt.mk 7 3) (1 / 2) (by norm_num)

/-- C6.  `arc_length` of a sequence of at most two points does not depend on
the `closed` flag (the closing edge is only added past two points), and a
sequence of fewer than two points has arc length `0` for either flag. -/
theorem arc_length_short (arc : List Pt) :
    (arc.length ≤ 2 → arc_length arc true = arc_length arc false) ∧
    (arc.length < 2 → ∀ (c : Bool), arc_length arc c = 0) := by
  constructor
  · intro h
    simp [arc_length, not_lt.mpr h]
  · intro h c
    match arc, h with
    | [], _ => simp [arc_length]
    | [a], _ => simp [arc_length]

/-- Witness for C6: a concrete two-point arc, open and closed, and the empty
arc. -/
theorem arc_length_short_witness :
    arc_length [Pt.mk 0 0, Pt.mk 3 4] true = arc_length [Pt.mk 0 0, Pt.mk 3 4] false ∧
    arc_length [] true = 0 :=
  ⟨(arc_length_short [Pt.mk 0 0, Pt.mk 3 4]).1 (by norm_num),
   (arc_length_short []).2 (by norm_num) true⟩

end Imageproc

namespace Imageproc

/-- Monotonicity core of `approx_poly_dp`: the split index depends only on
the curve, never on `epsilon`, so on one curve a larger positive `epsilon`
can only turn a recursion into a collapse — the point count never grows. -/
theorem approxAux_mono (e1 e2 : ℚ) (he1 : 0 < e1) (h12 : e1 ≤ e2) :
    ∀ (n : ℕ) (curve : List Pt), curve.length ≤ n →
      ∀ l1 l2, approxAux e1 curve = some l1 → approxAux e2 curve = some l2 →
        l2.length ≤ l1.length := by
  intro n
  induction n with
  | zero =>
      intro curve hlen l1 l2 ha1 ha2
      cases curve with
      | nil => rw [approxAux] at ha1; cases ha1
      | cons a l => simp at hlen
  | succ n ih =>
      intro curve hlen l1 l2 ha1 ha2
      cases curve with
      | nil => rw [approxAux] at ha1; cases ha1
      | cons c0 rest =>
        rw [approxAux] at ha1 ha2
        have hL' : (0 : ℚ) ≤ ((lineLen2 c0 ((c0 :: rest).getLast (by simp)) : ℤ) : ℚ) := by
          have h0 : (0 : ℤ) ≤ lineLen2 c0 ((c0 :: rest).getLast (by simp)) := by
            unfold lineLen2; positivity
          exact_mod_cast h0
        by_cases hg2 : (e2 ^ 2) * ((lineLen2 c0 ((c0 :: rest).getLast (by simp)) : ℤ) : ℚ)
            < (((farthest c0 ((c0 :: rest).getLast (by simp)) 1 rest (0, 0)).2 : ℕ) : ℚ) ^ 2
        · -- the larger epsilon still recurses, so the smaller one does too,
          -- and both split at the same index
          have hg1 : (e1 ^ 2) * ((lineLen2 c0 ((c0 :: rest).getLast (by simp)) : ℤ) : ℚ)
              < (((farthest c0 ((c0 :: rest).getLast (by simp)) 1 rest (0, 0)).2 : ℕ) : ℚ) ^ 2 := by
            refine lt_of_le_of_lt ?_ hg2
            have hee : e1 ^ 2 ≤ e2 ^ 2 := by
              apply pow_le_pow_left he1.le h12
            exact mul_le_mul_of_nonneg_right hee hL'
          rw [dif_pos hg1] at ha1
          rw [dif_pos hg2] at ha2
          have hm : 0 < (farthest c0 ((c0 :: rest).getLast (by simp)) 1 rest (0, 0)).2 := by
            by_contra h0
            have h2 : (farthest c0 ((c0 :: rest).getLast (by simp)) 1 rest (0, 0)).2 = 0 := by
              omega
            rw [h2] at hg2
            norm_num at hg2
            exact absurd hg2 (not_lt.mpr (mul_nonneg (by positivity) hL'))
          obtain ⟨hi1, hi2⟩ := farthest_interior c0 rest _ rfl hm
          have hlen' : (c0 :: rest).length = rest.length + 1 := by simp
          obtain ⟨p11, hp11, hq11⟩ := approxAux_some e1 n
            ((c0 :: rest).take ((farthest c0 ((c0 :: rest).getLast (by simp)) 1 rest (0, 0)).1 + 1))
            (by simp only [List.length_take]; omega)
            (by apply List.ne_nil_of_length_pos; simp only [List.length_take]; omega)
          obtain ⟨p12, hp12, hq12⟩ := approxAux_some e1 n
            ((c0 :: rest).drop ((farthest c0 ((c0 :: rest).getLast (by simp)) 1 rest (0, 0)).1))
            (by simp only [List.length_drop]; omega)
            (by apply List.ne_nil_of_length_pos; simp only [List.length_drop]; omega)
          obtain ⟨p21, hp21, hq21⟩ := approxAux_some e2 n
            ((c0 :: rest).take ((farthest c0 ((c0 :: rest).getLast (by simp)) 1 rest (0, 0)).1 + 1))
            (by simp only [List.length_take]; omega)
            (by apply List.ne_nil_of_length_pos; simp only [List.length_take]; omega)
          obtain ⟨p22, hp22, hq22⟩ := approxAux_some e2 n
            ((c0 :: rest).drop ((farthest c0 ((c0 :: rest).getLast (by simp)) 1 rest (0, 0)).1))
            (by simp only [List.length_drop]; omega)
            (by apply List.ne_nil_of_length_pos; simp only [List.length_drop]; omega)
          rw [hp11, hp12] at ha1
          rw [hp21, hp22] at ha2
          have hl1 : p11.dropLast ++ p12 = l1 := by
            exact Option.some.inj ha1
          have hl2 : p21.dropLast ++ p22 = l2 := by
            exact Option.some.inj ha2
          have hm1 : p21.length ≤ p11.length := ih _ (by simp only [List.length_take]; omega)
            p11 p21 hp11 hp21
          have hm2 : p22.length ≤ p12.length := ih _ (by simp only [List.length_drop]; omega)
            p12 p22 hp12 hp22
          rw [← hl1, ← hl2]
          simp only [List.length_append, List.length_dropLast]
          omega
        · -- the larger epsilon collapses the whole range to its two endpoints
          rw [dif_neg hg2] at ha2
          have hl2 : l2 = [c0, (c0 :: rest).getLast (by simp)] :=
            (Option.some.inj ha2).symm
          have h2len : 2 ≤ l1.length := by
            obtain ⟨l, hl, hql⟩ := approxAux_some e1 (rest.length + 1) (c0 :: rest)
              (by simp) (by simp)
            rw [approxAux] at hl
            rw [hl] at ha1
            rw [Option.some.inj ha1] at hql
            exact hql
          rw [hl2]
          simpa using h2len

/-- C5.  For a curve of length at least 2 and tolerances `0 < e1 ≤ e2`, the
result of `approx_poly_dp` at `e2` (open) has at most as many points as the
result at `e1`. -/
theorem approx_poly_dp_monotone (curve : List Pt) (e1 e2 : ℚ)
    (he1 : 0 < e1) (h12 : e1 ≤ e2) (hlen : 2 ≤ curve.length) :
    ∀ l1 l2, approx_poly_dp curve e1 false = some l1 →
      approx_poly_dp curve e2 false = some l2 → l2.length ≤ l1.length := by
  intro l1 l2 hd1 hd2
  have he2 : 0 < e2 := lt_of_lt_of_le he1 h12
  simp only [approx_poly_dp, if_neg (not_le.mpr he1), if_neg (not_le.mpr he2)] at hd1 hd2
  cases hq1 : approxAux e1 curve with
  | none => rw [hq1] at hd1; cases hd1
  | some r1 =>
      cases hq2 : approxAux e2 curve with
      | none => rw [hq2] at hd2; cases hd2
      | some r2 =>
          rw [hq1] at hd1
          rw [hq2] at hd2
          simp only [Bool.false_eq_true, if_false] at hd1 hd2
          rw [← Option.some.inj hd1, ← Option.some.inj hd2]
          exact approxAux_mono e1 e2 he1 h12 curve.length curve le_rfl r1 r2 hq1 hq2

/-- Evaluation of the recursive core on a concrete three-point wedge with the
small tolerance `1`: the wedge's apex survives. -/
theorem approxAux_one_tri :
    approxAux 1 [Pt.mk 0 0, Pt.mk 1 5, Pt.mk 2 0]
      = some [Pt.mk 0 0, Pt.mk 1 5, Pt.mk 2 0] := by
  rw [approxAux]
  norm_num [farthest, lineVal, lineLen2, List.getLast, approxAux_pair]

/-- Evaluation of the recursive core on the same wedge with tolerance `10`:
the range collapses to its endpoints. -/
theorem approxAux_ten_tri :
    approxAux 10 [Pt.mk 0 0, Pt.mk 1 5, Pt.mk 2 0] = some [Pt.mk 0 0, Pt.mk 2 0] := by
  rw [approxAux]
  norm_num [farthest, lineVal, lineLen2, List.getLast]

/-- Witness for C5: on the concrete wedge, tolerance `10` yields 2 points
against 3 points for tolerance `1`. -/
theorem approx_poly_dp_monotone_witness :
    ([Pt.mk 0 0, Pt.mk 2 0] : List Pt).length
      ≤ ([Pt.mk 0 0, Pt.mk 1 5, Pt.mk 2 0] : List Pt).length :=
  approx_poly_dp_monotone [Pt.mk 0 0, Pt.mk 1 5, Pt.mk 2 0] 1 10
    (by norm_num) (by norm_num) (by norm_num)
    [Pt.mk 0 0, Pt.mk 1 5, Pt.mk 2 0] [Pt.mk 0 0, Pt.mk 2 0]
    (by simp [approx_poly_dp, approxAux_one_tri])
    (by simp [approx_poly_dp, approxAux_ten_tri])

end Imageproc

namespace Imageproc

/-- The pivot search never moves off a best point that ties every later
candidate exactly (the update condition is strict). -/
theorem findStart_replicate (p : Pt) :
    ∀ (k : ℕ) (i : ℕ) (best : ℕ × Pt), best.2 = p →
      findStart i best (List.replicate k p) = best := by
  intro k
  induction k with
  | zero => intro i best _; rfl
  | succ k ih =>
      intro i best h
      rw [List.replicate_succ, findStart]
      have hcond : ¬(p.y < best.2.y ∨ (p.y = best.2.y ∧ p.x < best.2.x)) := by
        rw [h]; simp
      rw [if_neg hcond]
      exact ih (i + 1) best h

/-- The comparator at two equal points answers `Greater` (collinear, and the
strict distance comparison fails). -/
theorem cmpPts_self (s0 a : Pt) : cmpPts s0 a a = Ordering.gt := by
  have h : val s0 a a = 0 := by unfold val; ring
  unfold cmpPts orientation
  rw [if_pos h]
  simp

theorem orderedInsert_replicate (p : Pt) :
    ∀ (k : ℕ),
      List.orderedInsert (fun a b => cmpPts p a b = Ordering.lt) p (List.replicate k p)
        = List.replicate (k + 1) p := by
  intro k
  induction k with
  | zero => rfl
  | succ k ih =>
      rw [List.replicate_succ, List.orderedInsert]
      rw [if_neg (by simp [cmpPts_self])]
      rw [ih]
      rfl

/-- Sorting a constant list leaves it unchanged. -/
theorem sortPoints_replicate (p : Pt) :
    ∀ (m : ℕ), sortPoints p (List.replicate m p) = List.replicate m p := by
  intro m
  induction m with
  | zero => rfl
  | succ m ih =>
      rw [List.replicate_succ]
      unfold sortPoints at ih ⊢
      rw [List.insertionSort]
      rw [ih, orderedInsert_replicate]
      rfl

theorem popWhile_self_pair (p : Pt) : popWhile p [p, p] = [p] := by
  have h : orientation p p p = Orientation.Collinear := by
    have hv : val p p p = 0 := by unfold val; ring
    unfold orientation
    rw [if_pos hv]
  rw [popWhile, if_pos (by rw [h]; simp)]
  rfl

theorem foldl_scanStep_replicate (p : Pt) :
    ∀ (k : ℕ), (List.replicate k p).foldl scanStep [p, p] = [p, p] := by
  intro k
  induction k with
  | zero => rfl
  | succ k ih =>
      rw [List.replicate_succ, List.foldl_cons]
      have hstep : scanStep [p, p] p = [p, p] := by
        unfold scanStep
        rw [popWhile_self_pair]
      rw [hstep, ih]

/-- C9.  `convex_hull` of `n ≥ 2` copies of one point `p` returns exactly two
points, both `p` — not a single-point hull: every iteration of the scan loop
past the first pops the duplicate top (collinear) and pushes the new copy. -/
theorem convex_hull_replicate (n : ℕ) (p : Pt) (hn : 2 ≤ n) :
    convex_hull (List.replicate n p) = [p, p] := by
  obtain ⟨m, rfl⟩ : ∃ m, n = m + 2 := ⟨n - 2, by omega⟩
  have hsplit : List.replicate (m + 2) p = p :: List.replicate (m + 1) p := by
    rw [show m + 2 = (m + 1) + 1 from rfl]
    rw [List.replicate_succ]
  rw [hsplit]
  show ((sortPoints (findStart 1 (0, p) (List.replicate (m + 1) p)).2
      (removeStart (p :: List.replicate (m + 1) p)
        (findStart 1 (0, p) (List.replicate (m + 1) p)).1)).foldl scanStep
      [(findStart 1 (0, p) (List.replicate (m + 1) p)).2]).reverse = [p, p]
  rw [findStart_replicate p (m + 1) 1 (0, p) rfl]
  show ((sortPoints p (List.replicate (m + 1) p)).foldl scanStep [p]).reverse = [p, p]
  rw [sortPoints_replicate]
  rw [List.replicate_succ, List.foldl_cons]
  have hstep : scanStep [p] p = [p, p] := rfl
  rw [hstep, foldl_scanStep_replicate]
  rfl

/-- Witness for C9 at a concrete point and count. -/
theorem convex_hull_replicate_witness :
    convex_hull (List.replicate 5 (Pt.mk 3 (-4))) = [Pt.mk 3 (-4), Pt.mk 3 (-4)] :=
  convex_hull_replicate 5 (Pt.mk 3 (-4)) (by norm_num)

end Imageproc

namespace Imageproc

/-- C4 (code bug): at the failing input `[(0,0),(1,0),(2,0),(0,1)]` the
collinear collapse (`remaining_points` of the source) removes the nearer
collinear point `(1,0)`, so it differs from the sorted list — yet
`convex_hull` folds its stack scan over the full sorted list (`for p in
points`), so the nearer collinear point does reach the scan and
`remaining_points` is dead code. -/
theorem collinear_collapse_unused :
    sortPoints (Pt.mk 0 0) (removeStart [Pt.mk 0 0, Pt.mk 1 0, Pt.mk 2 0, Pt.mk 0 1] 0)
        = [Pt.mk 1 0, Pt.mk 2 0, Pt.mk 0 1] ∧
    collinearCollapse (Pt.mk 0 0) [Pt.mk 1 0, Pt.mk 2 0, Pt.mk 0 1]
        = [Pt.mk 2 0, Pt.mk 0 1] ∧
    convex_hull [Pt.mk 0 0, Pt.mk 1 0, Pt.mk 2 0, Pt.mk 0 1]
        = ([Pt.mk 1 0, Pt.mk 2 0, Pt.mk 0 1].foldl scanStep [Pt.mk 0 0]).reverse := by
  refine ⟨by decide, by decide, ?_⟩
  rfl

end Imageproc

namespace Imageproc

/-! ## Geometric core for the Graham-scan proofs

`cross o a b` is the standard counterclockwise form of the orientation
determinant: `val p q r = - cross p q r`, so the source's `CounterClockwise`
is `0 < cross`.  `upper s0 q` says `q` is not lexicographically (y, then x)
below `s0` — the defining property of the pivot the scan selects. -/

/-- `(a - o) × (b - o)`: positive exactly on counterclockwise turns. -/
def cross (o a b : Pt) : ℤ :=
  (a.x - o.x) * (b.y - o.y) - (a.y - o.y) * (b.x - o.x)

theorem val_eq_neg_cross (p q r : Pt) : val p q r = -cross p q r := by
  unfold val cross; ring

theorem orientation_ccw_iff (p q r : Pt) :
    orientation p q r = Orientation.CounterClockwise ↔ 0 < cross p q r := by
  unfold orientation
  rw [val_eq_neg_cross]
  rcases lt_trichotomy (cross p q r) 0 with h | h | h
  · rw [if_neg (by omega), if_pos (by omega)]
    constructor
    · intro hc; cases hc
    · intro hc; omega
  · rw [if_pos (by omega)]
    constructor
    · intro hc; cases hc
    · intro hc; omega
  · rw [if_neg (by omega), if_neg (by omega)]
    simp [h]

theorem orientation_collinear_iff (p q r : Pt) :
    orientation p q r = Orientation.Collinear ↔ cross p q r = 0 := by
  unfold orientation
  rw [val_eq_neg_cross]
  rcases lt_trichotomy (cross p q r) 0 with h | h | h
  · rw [if_neg (by omega), if_pos (by omega)]
    constructor
    · intro hc; cases hc
    · intro hc; omega
  · rw [if_pos (by omega)]
    simp [h]
  · rw [if_neg (by omega), if_neg (by omega)]
    constructor
    · intro hc; cases hc
    · intro hc; omega

theorem orientation_cw_iff (p q r : Pt) :
    orientation p q r = Orientation.Clockwise ↔ cross p q r < 0 := by
  unfold orientation
  rw [val_eq_neg_cross]
  rcases lt_trichotomy (cross p q r) 0 with h | h | h
  · rw [if_neg (by omega), if_pos (by omega)]
    simp [h]
  · rw [if_pos (by omega)]
    constructor
    · intro hc; cases hc
    · intro hc; omega
  · rw [if_neg (by omega), if_neg (by omega)]
    constructor
    · intro hc; cases hc
    · intro hc; omega

theorem cross_cyclic (o a b : Pt) : cross o a b = cross a b o := by
  unfold cross; ring

theorem cross_antisym (o a b : Pt) : cross o a b = -cross o b a := by
  unfold cross; ring

theorem cross_self_right (o a : Pt) : cross o a a = 0 := by
  unfold cross; ring

theorem cross_self_left (o a : Pt) : cross o o a = 0 := by
  unfold cross; ring

/-- `q` is weakly above the pivot: not lexicographically (y, x) below it.
Every non-pivot point of the scan satisfies this by pivot minimality. -/
def upper (s0 q : Pt) : Prop :=
  s0.y ≤ q.y ∧ (q.y = s0.y → s0.x ≤ q.x)

/-- The weak sorting relation the comparator induces: strictly
counterclockwise from the pivot, or collinear and no farther. -/
def Rle (s0 a b : Pt) : Prop :=
  0 < cross s0 a b ∨ (cross s0 a b = 0 ∧ distSq s0 a ≤ distSq s0 b)

/-- The Cramer three-vector identity, x component: any three planar vectors
are linearly dependent with cross-product coefficients. -/
theorem cramer_x (s0 a b c : Pt) :
    cross s0 a b * (c.x - s0.x) + cross s0 b c * (a.x - s0.x)
      = cross s0 a c * (b.x - s0.x) := by
  unfold cross; ring

theorem cramer_y (s0 a b c : Pt) :
    cross s0 a b * (c.y - s0.y) + cross s0 b c * (a.y - s0.y)
      = cross s0 a c * (b.y - s0.y) := by
  unfold cross; ring

/-- Parallel vectors in the closed upper half-plane (with the rightward
x-axis) have nonnegative dot product. -/
theorem dot_nonneg_of_collinear (s0 b c : Pt)
    (hb : upper s0 b) (hc : upper s0 c) (hcol : cross s0 b c = 0) :
    0 ≤ (b.x - s0.x) * (c.x - s0.x) + (b.y - s0.y) * (c.y - s0.y) := by
  obtain ⟨hb1, hb2⟩ := hb
  obtain ⟨hc1, hc2⟩ := hc
  unfold cross at hcol
  rcases lt_or_eq_of_le hb1 with hby | hby
  · -- b strictly above: dot · (b.y - s0.y) = (c.y - s0.y) · ‖b - s0‖²
    by_contra hneg
    push_neg at hneg
    have key : ((b.x - s0.x) * (c.x - s0.x) + (b.y - s0.y) * (c.y - s0.y)) * (b.y - s0.y)
        = (c.y - s0.y) * ((b.x - s0.x) ^ 2 + (b.y - s0.y) ^ 2) := by
      linear_combination (-(b.x - s0.x)) * hcol
    have h1 : 0 ≤ (c.y - s0.y) * ((b.x - s0.x) ^ 2 + (b.y - s0.y) ^ 2) :=
      mul_nonneg (by omega) (by positivity)
    have h2 : ((b.x - s0.x) * (c.x - s0.x) + (b.y - s0.y) * (c.y - s0.y)) * (b.y - s0.y)
        < 0 :=
      mul_neg_of_neg_of_pos (by omega) (by omega)
    linarith
  · -- b on the pivot's horizontal: b.x ≥ s0.x and b.y = s0.y
    have hbx : 0 ≤ b.x - s0.x := by
      have := hb2 hby.symm; omega
    have hby0 : b.y - s0.y = 0 := by omega
    rcases lt_or_eq_of_le hc1 with hcy | hcy
    · -- c strictly above: collinearity forces b.x = s0.x, dot vanishes
      have hz : (b.x - s0.x) * (c.y - s0.y) = 0 := by
        linear_combination hcol + (c.x - s0.x) * hby0
      rcases mul_eq_zero.mp hz with hz1 | hz2
      · rw [hz1, hby0]; ring_nf; omega
      · omega
    · have hcx : 0 ≤ c.x - s0.x := by
        have := hc2 hcy.symm; omega
      have hcy0 : c.y - s0.y = 0 := by omega
      rw [hby0, hcy0]
      have := mul_nonneg hbx hcx
      omega

end Imageproc

namespace Imageproc

theorem distSq_comm_coords (s0 b : Pt) :
    distSq s0 b = (b.x - s0.x) ^ 2 + (b.y - s0.y) ^ 2 := by
  unfold distSq; ring

/-- Angular transitivity around the pivot, valid because every point under
comparison lies in the pivot's closed upper half-plane. -/
theorem cross_trans_upper (s0 a b c : Pt)
    (ha : upper s0 a) (hb : upper s0 b) (hc : upper s0 c)
    (h1 : 0 < cross s0 a b) (h2 : 0 < cross s0 b c) :
    0 < cross s0 a c := by
  by_contra hM
  push_neg at hM
  obtain ⟨ha1, ha2⟩ := ha
  obtain ⟨hb1, hb2⟩ := hb
  obtain ⟨hc1, hc2⟩ := hc
  have hy := cramer_y s0 a b c
  have hx := cramer_x s0 a b c
  have hay : 0 ≤ a.y - s0.y := by omega
  have hby : 0 ≤ b.y - s0.y := by omega
  have hcy : 0 ≤ c.y - s0.y := by omega
  have t1 : 0 ≤ cross s0 a b * (c.y - s0.y) := mul_nonneg h1.le hcy
  have t2 : 0 ≤ cross s0 b c * (a.y - s0.y) := mul_nonneg h2.le hay
  have t3 : cross s0 a c * (b.y - s0.y) ≤ 0 := mul_nonpos_of_nonpos_of_nonneg hM hby
  have e1 : cross s0 a b * (c.y - s0.y) = 0 := by linarith
  have e2 : cross s0 b c * (a.y - s0.y) = 0 := by linarith
  have e3 : cross s0 a c * (b.y - s0.y) = 0 := by linarith
  have hcy0 : c.y - s0.y = 0 := by
    rcases mul_eq_zero.mp e1 with hz | hz
    · omega
    · exact hz
  have hay0 : a.y - s0.y = 0 := by
    rcases mul_eq_zero.mp e2 with hz | hz
    · omega
    · exact hz
  have hax : 0 ≤ a.x - s0.x := by
    have := ha2 (by omega); omega
  have hcx : 0 ≤ c.x - s0.x := by
    have := hc2 (by omega); omega
  have hax' : 0 < a.x - s0.x := by
    rcases lt_or_eq_of_le hax with h | h
    · exact h
    · exfalso
      have hz : cross s0 a b = 0 := by
        unfold cross
        linear_combination (b.y - s0.y) * h.symm - (b.x - s0.x) * hay0
      omega
  have hcx' : 0 < c.x - s0.x := by
    rcases lt_or_eq_of_le hcx with h | h
    · exact h
    · exfalso
      have hz : cross s0 b c = 0 := by
        unfold cross
        linear_combination (b.x - s0.x) * hcy0 - (b.y - s0.y) * h.symm
      omega
  have hlhs : 0 < cross s0 a b * (c.x - s0.x) + cross s0 b c * (a.x - s0.x) := by
    have u1 : 0 < cross s0 a b * (c.x - s0.x) := mul_pos h1 hcx'
    have u2 : 0 < cross s0 b c * (a.x - s0.x) := mul_pos h2 hax'
    linarith
  rw [hx] at hlhs
  rcases lt_or_eq_of_le hby with hby' | hby'
  · have hM0 : cross s0 a c = 0 := by
      rcases mul_eq_zero.mp e3 with hz | hz
      · exact hz
      · omega
    rw [hM0] at hlhs
    simp at hlhs
  · have hbx : 0 ≤ b.x - s0.x := by
      have := hb2 (by omega); omega
    have : cross s0 a c * (b.x - s0.x) ≤ 0 := mul_nonpos_of_nonpos_of_nonneg hM hbx
    linarith

/-- On one ray from the pivot, moving the far argument outward does not
decrease a positive cross product: quantitative collinear monotonicity. -/
theorem cross_mono_of_ray (s0 a b c : Pt)
    (hb : upper s0 b) (hc : upper s0 c)
    (hcol : cross s0 b c = 0) (hd : distSq s0 b ≤ distSq s0 c)
    (hK : 0 < cross s0 a b) :
    cross s0 a b ≤ cross s0 a c := by
  have hxid : cross s0 a b * (c.x - s0.x) = cross s0 a c * (b.x - s0.x) := by
    have h := cramer_x s0 a b c
    rw [hcol] at h
    linarith
  have hyid : cross s0 a b * (c.y - s0.y) = cross s0 a c * (b.y - s0.y) := by
    have h := cramer_y s0 a b c
    rw [hcol] at h
    linarith
  have hnormb : 0 < (b.x - s0.x) ^ 2 + (b.y - s0.y) ^ 2 := by
    rcases lt_or_eq_of_le (by positivity : (0:ℤ) ≤ (b.x - s0.x) ^ 2 + (b.y - s0.y) ^ 2)
      with h | h
    · exact h
    · exfalso
      have hx0 : b.x - s0.x = 0 := by nlinarith [sq_nonneg (b.x - s0.x), sq_nonneg (b.y - s0.y)]
      have hy0 : b.y - s0.y = 0 := by nlinarith [sq_nonneg (b.x - s0.x), sq_nonneg (b.y - s0.y)]
      have hz : cross s0 a b = 0 := by
        unfold cross
        linear_combination (a.x - s0.x) * hy0 - (a.y - s0.y) * hx0
      omega
  have hsq : cross s0 a b ^ 2 * ((c.x - s0.x) ^ 2 + (c.y - s0.y) ^ 2)
      = cross s0 a c ^ 2 * ((b.x - s0.x) ^ 2 + (b.y - s0.y) ^ 2) := by
    linear_combination (cross s0 a b * (c.x - s0.x) + cross s0 a c * (b.x - s0.x)) * hxid
      + (cross s0 a b * (c.y - s0.y) + cross s0 a c * (b.y - s0.y)) * hyid
  have hdot : cross s0 a b * ((b.x - s0.x) * (c.x - s0.x) + (b.y - s0.y) * (c.y - s0.y))
      = cross s0 a c * ((b.x - s0.x) ^ 2 + (b.y - s0.y) ^ 2) := by
    linear_combination (b.x - s0.x) * hxid + (b.y - s0.y) * hyid
  have hdotpos := dot_nonneg_of_collinear s0 b c hb hc hcol
  have hM0 : 0 ≤ cross s0 a c := by
    nlinarith [mul_nonneg hK.le hdotpos]
  have hdb : (b.x - s0.x) ^ 2 + (b.y - s0.y) ^ 2 ≤ (c.x - s0.x) ^ 2 + (c.y - s0.y) ^ 2 := by
    rw [distSq_comm_coords, distSq_comm_coords] at hd
    exact hd
  have hsq2 : cross s0 a b ^ 2 ≤ cross s0 a c ^ 2 := by
    nlinarith [sq_nonneg (cross s0 a b)]
  nlinarith [hM0, hsq2, hK]

/-- Replacing a point by a nearer point on its pivot ray preserves a weakly
counterclockwise position: the degenerate nearer point is the pivot itself. -/
theorem cross_of_ray_left (s0 a b c : Pt)
    (ha : upper s0 a) (hb : upper s0 b)
    (hcol : cross s0 a b = 0) (hd : distSq s0 a ≤ distSq s0 b)
    (hP : 0 < cross s0 b c) :
    Rle s0 a c := by
  have hxid : cross s0 b c * (a.x - s0.x) = cross s0 a c * (b.x - s0.x) := by
    have h := cramer_x s0 a b c
    rw [hcol] at h
    linarith
  have hyid : cross s0 b c * (a.y - s0.y) = cross s0 a c * (b.y - s0.y) := by
    have h := cramer_y s0 a b c
    rw [hcol] at h
    linarith
  have hbne : ¬(b.x - s0.x = 0 ∧ b.y - s0.y = 0) := by
    rintro ⟨h1, h2⟩
    have hz : cross s0 b c = 0 := by
      unfold cross
      linear_combination (c.y - s0.y) * h1 - (c.x - s0.x) * h2
    omega
  have hnormb : 0 < (b.x - s0.x) ^ 2 + (b.y - s0.y) ^ 2 := by
    rcases lt_or_eq_of_le (by positivity : (0:ℤ) ≤ (b.x - s0.x) ^ 2 + (b.y - s0.y) ^ 2)
      with h | h
    · exact h
    · exfalso
      exact hbne ⟨by nlinarith [sq_nonneg (b.x - s0.x), sq_nonneg (b.y - s0.y)],
        by nlinarith [sq_nonneg (b.x - s0.x), sq_nonneg (b.y - s0.y)]⟩
  have hdotpos := dot_nonneg_of_collinear s0 a b ha hb hcol
  have hdot : cross s0 b c * ((a.x - s0.x) * (b.x - s0.x) + (a.y - s0.y) * (b.y - s0.y))
      = cross s0 a c * ((b.x - s0.x) ^ 2 + (b.y - s0.y) ^ 2) := by
    linear_combination (b.x - s0.x) * hxid + (b.y - s0.y) * hyid
  have hN0 : 0 ≤ cross s0 a c := by
    nlinarith [mul_nonneg hP.le hdotpos]
  rcases lt_or_eq_of_le hN0 with hN | hN
  · exact Or.inl hN
  · -- cross s0 a c = 0 forces a = s0, which is weakly before anything
    have hP' : cross s0 b c ≠ 0 := by omega
    have hax0 : a.x - s0.x = 0 := by
      have h := hxid
      rw [← hN, zero_mul] at h
      rcases mul_eq_zero.mp h with h' | h'
      · exact absurd h' hP'
      · exact h'
    have hay0 : a.y - s0.y = 0 := by
      have h := hyid
      rw [← hN, zero_mul] at h
      rcases mul_eq_zero.mp h with h' | h'
      · exact absurd h' hP'
      · exact h'
    refine Or.inr ⟨hN.symm, ?_⟩
    rw [distSq_comm_coords s0 a, distSq_comm_coords s0 c, hax0, hay0]
    norm_num
    positivity

/-- Collinear-and-nearer is transitive along one pivot ray. -/
theorem ray_trans (s0 a b c : Pt)
    (hcol1 : cross s0 a b = 0) (hd1 : distSq s0 a ≤ distSq s0 b)
    (hcol2 : cross s0 b c = 0) (hd2 : distSq s0 b ≤ distSq s0 c) :
    cross s0 a c = 0 ∧ distSq s0 a ≤ distSq s0 c := by
  refine ⟨?_, le_trans hd1 hd2⟩
  by_cases hb0 : b.x - s0.x = 0 ∧ b.y - s0.y = 0
  · -- b = s0: then a = s0 as well (distance 0)
    obtain ⟨hbx, hby⟩ := hb0
    have hdb : distSq s0 b = 0 := by
      rw [distSq_comm_coords, hbx, hby]; ring
    have hda : distSq s0 a = 0 := by
      have h0 : 0 ≤ distSq s0 a := by rw [distSq_comm_coords]; positivity
      omega
    rw [distSq_comm_coords] at hda
    have hax : a.x - s0.x = 0 := by nlinarith [sq_nonneg (a.x - s0.x), sq_nonneg (a.y - s0.y)]
    have hay : a.y - s0.y = 0 := by nlinarith [sq_nonneg (a.x - s0.x), sq_nonneg (a.y - s0.y)]
    unfold cross
    linear_combination (c.y - s0.y) * hax - (c.x - s0.x) * hay
  · -- b ≠ s0: Cramer collapses to cross s0 a c · (b - s0) = 0
    have hxid : cross s0 a c * (b.x - s0.x) = 0 := by
      have h := cramer_x s0 a b c
      rw [hcol1, hcol2] at h
      linarith
    have hyid : cross s0 a c * (b.y - s0.y) = 0 := by
      have h := cramer_y s0 a b c
      rw [hcol1, hcol2] at h
      linarith
    rcases mul_eq_zero.mp hxid with h | hx
    · exact h
    · rcases mul_eq_zero.mp hyid with h | hy
      · exact h
      · exact absurd ⟨hx, hy⟩ hb0

/-- The pop condition fires on a collinear cluster: if the stack's top `b` is
collinear with the candidate `p` (and no farther) while the point `a` below it
is strictly angularly before `b`, the turn `(a, b, p)` is not strictly
counterclockwise. -/
theorem cluster_pop (s0 a b p : Pt) (hb : upper s0 b) (hp : upper s0 p)
    (hcol : cross s0 b p = 0) (hd : distSq s0 b ≤ distSq s0 p)
    (hK : 0 < cross s0 a b) :
    cross a b p ≤ 0 := by
  have h := cross_mono_of_ray s0 a b p hb hp hcol hd hK
  have hid : cross a b p = cross s0 b p + cross s0 a b - cross s0 a p := by
    unfold cross; ring
  omega

end Imageproc

namespace Imageproc

/-- A `Less` answer from the source's comparator means weakly before. -/
theorem Rle_of_cmp_lt (s0 a b : Pt) (h : cmpPts s0 a b = Ordering.lt) : Rle s0 a b := by
  unfold cmpPts at h
  cases ho : orientation s0 a b with
  | Collinear =>
      rw [ho] at h
      rw [orientation_collinear_iff] at ho
      by_cases hd : distSq s0 a < distSq s0 b
      · exact Or.inr ⟨ho, hd.le⟩
      · rw [if_neg hd] at h; cases h
  | Clockwise => rw [ho] at h; cases h
  | CounterClockwise =>
      rw [orientation_ccw_iff] at ho
      exact Or.inl ho

/-- A non-`Less` answer from the comparator means the swapped pair is weakly
before (the comparator never answers `Equal`). -/
theorem Rle_of_cmp_not_lt (s0 a b : Pt) (h : ¬ cmpPts s0 a b = Ordering.lt) :
    Rle s0 b a := by
  unfold cmpPts at h
  cases ho : orientation s0 a b with
  | Collinear =>
      rw [ho] at h
      rw [orientation_collinear_iff] at ho
      by_cases hd : distSq s0 a < distSq s0 b
      · rw [if_pos hd] at h; exact absurd rfl h
      · refine Or.inr ⟨?_, by omega⟩
        rw [cross_antisym, ho]
        ring
  | Clockwise =>
      rw [orientation_cw_iff] at ho
      refine Or.inl ?_
      rw [cross_antisym]
      omega
  | CounterClockwise =>
      rw [ho] at h
      exact absurd rfl h

/-- `Rle` is transitive among points of the pivot's upper half-plane. -/
theorem Rle_trans_upper (s0 a b c : Pt)
    (ha : upper s0 a) (hb : upper s0 b) (hc : upper s0 c)
    (h1 : Rle s0 a b) (h2 : Rle s0 b c) : Rle s0 a c := by
  rcases h1 with h1 | ⟨h1c, h1d⟩
  · rcases h2 with h2 | ⟨h2c, h2d⟩
    · exact Or.inl (cross_trans_upper s0 a b c ha hb hc h1 h2)
    · exact Or.inl (lt_of_lt_of_le h1 (cross_mono_of_ray s0 a b c hb hc h2c h2d h1))
  · rcases h2 with h2 | ⟨h2c, h2d⟩
    · exact cross_of_ray_left s0 a b c ha hb h1c h1d h2
    · exact Or.inr (ray_trans s0 a b c h1c h1d h2c h2d)

end Imageproc

namespace Imageproc

theorem upper_refl (a : Pt) : upper a a := by
  unfold upper; omega

theorem upper_of_upper_of_lex {r p b : Pt} (h : upper r p)
    (hlex : p.y < b.y ∨ (p.y = b.y ∧ p.x < b.x)) : upper r b := by
  unfold upper at h ⊢; omega

theorem upper_of_upper_of_notlex {r b q : Pt} (h : upper r b)
    (hlex : ¬(q.y < b.y ∨ (q.y = b.y ∧ q.x < b.x))) : upper r q := by
  unfold upper at h ⊢; omega

/-- The pivot the selection loop returns is weakly (y, then x) below the
running best and every scanned point. -/
theorem findStart_min (l : List Pt) :
    ∀ (i : ℕ) (best : ℕ × Pt),
      (∀ q ∈ l, upper (findStart i best l).2 q) ∧
        upper (findStart i best l).2 best.2 := by
  induction l with
  | nil =>
      intro i best
      exact ⟨by simp, upper_refl _⟩
  | cons p l ih =>
      intro i best
      rw [findStart]
      by_cases hc : p.y < best.2.y ∨ (p.y = best.2.y ∧ p.x < best.2.x)
      · rw [if_pos hc]
        obtain ⟨h1, h2⟩ := ih (i + 1) (i, p)
        refine ⟨?_, upper_of_upper_of_lex h2 hc⟩
        intro q hq
        rcases List.mem_cons.mp hq with rfl | hq'
        · exact h2
        · exact h1 q hq'
      · rw [if_neg hc]
        obtain ⟨h1, h2⟩ := ih (i + 1) best
        refine ⟨?_, h2⟩
        intro q hq
        rcases List.mem_cons.mp hq with rfl | hq'
        · exact upper_of_upper_of_notlex h2 hc
        · exact h1 q hq'

theorem removeStart_subset (l : List Pt) (pos : ℕ) :
    ∀ q ∈ removeStart l pos, q ∈ l := by
  match l, pos with
  | [], _ => simp [removeStart]
  | p0 :: rest, 0 =>
      intro q hq
      rw [removeStart] at hq
      exact List.mem_cons_of_mem _ hq
  | p0 :: rest, pos + 1 =>
      intro q hq
      rw [removeStart] at hq
      rcases List.mem_or_eq_of_mem_set hq with h | h
      · exact List.mem_cons_of_mem _ h
      · simp [h]

/-- Inserting into an `Rle`-sorted list of upper points keeps it sorted. -/
theorem pairwise_orderedInsert (s0 a : Pt) (l : List Pt)
    (ha : upper s0 a) (hl : ∀ q ∈ l, upper s0 q)
    (hp : List.Pairwise (Rle s0) l) :
    List.Pairwise (Rle s0)
      (List.orderedInsert (fun x y => cmpPts s0 x y = Ordering.lt) a l) := by
  induction l with
  | nil => simp [List.orderedInsert]
  | cons b l ih =>
      rw [List.orderedInsert]
      by_cases hr : cmpPts s0 a b = Ordering.lt
      · rw [if_pos hr]
        refine List.Pairwise.cons ?_ hp
        intro q hq
        rcases List.mem_cons.mp hq with rfl | hq'
        · exact Rle_of_cmp_lt s0 a q hr
        · have hRab := Rle_of_cmp_lt s0 a b hr
          have hRbq := (List.pairwise_cons.mp hp).1 q hq'
          exact Rle_trans_upper s0 a b q ha (hl b (by simp)) (hl q (by simp [hq'])) hRab hRbq
      · rw [if_neg hr]
        have hp' := List.pairwise_cons.mp hp
        refine List.Pairwise.cons ?_ (ih (fun q hq => hl q (by simp [hq])) hp'.2)
        intro q hq
        have hmem := (List.perm_orderedInsert _ a l).mem_iff.mp hq
        rcases List.mem_cons.mp hmem with rfl | hq'
        · exact Rle_of_cmp_not_lt s0 q b hr
        · exact hp'.1 q hq'

/-- The angular sort of upper points is `Rle`-sorted. -/
theorem pairwise_sortPoints (s0 : Pt) (l : List Pt) (hl : ∀ q ∈ l, upper s0 q) :
    List.Pairwise (Rle s0) (sortPoints s0 l) := by
  unfold sortPoints
  induction l with
  | nil => simp
  | cons a l ih =>
      rw [List.insertionSort]
      apply pairwise_orderedInsert
      · exact hl a (by simp)
      · intro q hq
        have := (List.perm_insertionSort (fun x y => cmpPts s0 x y = Ordering.lt) l).mem_iff.mp hq
        exact hl q (by simp [this])
      · exact ih (fun q hq => hl q (by simp [hq]))

theorem sortPoints_perm (s0 : Pt) (l : List Pt) : List.Perm (sortPoints s0 l) l :=
  List.perm_insertionSort _ l

end Imageproc

namespace Imageproc

/-- All consecutive bottom-up triples of the scan stack (top at the head)
turn strictly counterclockwise. -/
def chainCCW : List Pt → Prop
  | c :: b :: a :: l => 0 < cross a b c ∧ chainCCW (b :: a :: l)
  | _ => True

theorem chainCCW_tail {x : Pt} {l : List Pt} (h : chainCCW (x :: l)) : chainCCW l := by
  match l with
  | [] => trivial
  | [a] => trivial
  | b :: a :: l' => exact h.2

theorem chainCCW_two (a b : Pt) : chainCCW [a, b] := trivial

/-- One scan iteration: popping, then pushing the candidate, preserves the
stack invariants — the popped part is a sub-stack, the new stack is strictly
angularly increasing from the pivot and chain-counterclockwise. -/
theorem popWhile_inv (s0 p : Pt) (hp : upper s0 p) :
    ∀ (t : List Pt),
      (∀ x ∈ t, upper s0 x) →
      (∀ x ∈ t, Rle s0 x p) →
      List.Pairwise (fun x y => 0 < cross s0 y x) t →
      chainCCW (t ++ [s0]) →
      ∃ t', popWhile p (t ++ [s0]) = t' ++ [s0] ∧
        (∀ x ∈ t', x ∈ t) ∧
        List.Pairwise (fun x y => 0 < cross s0 y x) (p :: t') ∧
        chainCCW ((p :: t') ++ [s0]) := by
  intro t
  induction t with
  | nil =>
      intro _ _ _ _
      refine ⟨[], rfl, by simp, by simp, chainCCW_two p s0⟩
  | cons b t2 ih =>
      intro hup hRle hB hch
      rcases ht : t2 ++ [s0] with _ | ⟨a, rest2⟩
      · exact absurd ht (by simp)
      · have hshape : (b :: t2) ++ [s0] = b :: a :: rest2 := by
          rw [List.cons_append, ht]
        rw [hshape, popWhile]
        by_cases hpop : orientation a b p = Orientation.CounterClockwise
        · -- the pop loop exits: the stack stays, p is pushed on top
          rw [if_neg (by simp [hpop])]
          rw [orientation_ccw_iff] at hpop
          refine ⟨b :: t2, by rw [hshape], fun x hx => hx, ?_, ?_⟩
          · -- strict angular increase up to p
            have hbp : 0 < cross s0 b p := by
              rcases hRle b (by simp) with h | ⟨hcol, hd⟩
              · exact h
              · -- collinear top: the pop condition would have fired
                exfalso
                cases t2 with
                | nil =>
                    -- below the top sits the pivot itself: a = s0
                    have ha0 : a = s0 := by
                      have : ([s0] : List Pt) = a :: rest2 := ht
                      cases this
                      rfl
                    rw [ha0] at hpop
                    omega
                | cons a' t3 =>
                    have ha0 : a = a' := by
                      have : (a' :: (t3 ++ [s0])) = a :: rest2 := by
                        simpa using ht
                      cases this
                      rfl
                    have hK : 0 < cross s0 a' b :=
                      (List.pairwise_cons.mp hB).1 a' (by simp)
                    have := cluster_pop s0 a' b p (hup b (by simp)) hp hcol hd hK
                    rw [ha0] at hpop
                    omega
            refine List.Pairwise.cons ?_ hB
            intro x hx
            rcases List.mem_cons.mp hx with rfl | hx'
            · exact hbp
            · -- deeper stack points are strictly before b, hence before p
              have hxb : 0 < cross s0 x b := (List.pairwise_cons.mp hB).1 x hx'
              exact cross_trans_upper s0 x b p (hup x (by simp [hx'])) (hup b (by simp)) hp hxb hbp
          · -- the chain extends by the vetted turn (a, b, p)
            show chainCCW (p :: b :: t2 ++ [s0])
            have : p :: b :: t2 ++ [s0] = p :: b :: a :: rest2 := by
              rw [← hshape]
              rfl
            rw [this]
            exact ⟨hpop, by rw [← hshape] at *; exact (by rw [hshape]; exact hch)⟩
        · -- pop the top and continue
          rw [if_pos (by simp [hpop])]
          have hch2 : chainCCW (t2 ++ [s0]) := chainCCW_tail (l := t2 ++ [s0]) (x := b)
            (by rw [← List.cons_append]; exact hch)
          obtain ⟨t', he, hmem, hBp, hchp⟩ := ih
            (fun x hx => hup x (by simp [hx]))
            (fun x hx => hRle x (by simp [hx]))
            (List.pairwise_cons.mp hB).2
            hch2
          rw [ht] at he
          exact ⟨t', he, fun x hx => by simp [hmem x hx], hBp, hchp⟩

end Imageproc

namespace Imageproc

/-- The scan-loop invariant, folded over the whole sorted list. -/
theorem scan_fold_inv (s0 : Pt) :
    ∀ (l : List Pt) (t : List Pt),
      List.Pairwise (Rle s0) l →
      (∀ q ∈ l, upper s0 q) →
      (∀ x ∈ t, upper s0 x) →
      (∀ x ∈ t, ∀ q ∈ l, Rle s0 x q) →
      List.Pairwise (fun x y => 0 < cross s0 y x) t →
      chainCCW (t ++ [s0]) →
      ∃ t', l.foldl scanStep (t ++ [s0]) = t' ++ [s0] ∧
        List.Pairwise (fun x y => 0 < cross s0 y x) t' ∧
        chainCCW (t' ++ [s0]) := by
  intro l
  induction l with
  | nil =>
      intro t _ _ _ _ hB hch
      exact ⟨t, rfl, hB, hch⟩
  | cons p l ih =>
      intro t hsort hupl hupt hRle hB hch
      rw [List.foldl_cons]
      obtain ⟨t1, he, hmem, hBp, hchp⟩ := popWhile_inv s0 p (hupl p (by simp)) t
        hupt (fun x hx => hRle x hx p (by simp)) hB hch
      have hstep : scanStep (t ++ [s0]) p = (p :: t1) ++ [s0] := by
        unfold scanStep
        rw [he]
        rfl
      rw [hstep]
      apply ih (p :: t1)
      · exact (List.pairwise_cons.mp hsort).2
      · intro q hq
        exact hupl q (by simp [hq])
      · intro x hx
        rcases List.mem_cons.mp hx with rfl | hx'
        · exact hupl x (by simp)
        · exact hupt x (hmem x hx')
      · intro x hx q hq
        rcases List.mem_cons.mp hx with rfl | hx'
        · exact (List.pairwise_cons.mp hsort).1 q hq
        · exact hRle x (hmem x hx') q (by simp [hq])
      · exact hBp
      · exact hchp

end Imageproc

namespace Imageproc

/-- Every three consecutive points of the list are a strict counterclockwise
turn of the program's orientation test. -/
def consecCCW : List Pt → Prop
  | a :: b :: c :: rest =>
      orientation a b c = Orientation.CounterClockwise ∧ consecCCW (b :: c :: rest)
  | _ => True

/-- The final two elements of a list, if it has two. -/
def lastTwo (l : List Pt) : Option (Pt × Pt) :=
  match l.reverse with
  | z :: y :: _ => some (y, z)
  | _ => none

theorem lastTwo_of_reverse (l : List Pt) (y z : Pt) (M : List Pt)
    (h : l.reverse = z :: y :: M) : lastTwo l = some (y, z) := by
  unfold lastTwo
  rw [h]

theorem consecCCW_snoc :
    ∀ (l : List Pt) (c y z : Pt), consecCCW l → lastTwo l = some (y, z) →
      0 < cross y z c → consecCCW (l ++ [c])
  | [], c, y, z, _, hlast, _ => by
      simp [lastTwo] at hlast
  | [x], c, y, z, _, hlast, _ => by
      simp [lastTwo] at hlast
  | [x1, x2], c, y, z, _, hlast, ht => by
      have h : x1 = y ∧ x2 = z := by
        unfold lastTwo at hlast
        simp at hlast
        exact ⟨hlast.1, hlast.2⟩
      obtain ⟨rfl, rfl⟩ := h
      exact ⟨(orientation_ccw_iff _ _ _).mpr ht, trivial⟩
  | x1 :: x2 :: x3 :: rest, c, y, z, hc, hlast, ht => by
      obtain ⟨h1, h2⟩ := hc
      have hlast' : lastTwo (x2 :: x3 :: rest) = some (y, z) := by
        unfold lastTwo at hlast ⊢
        rcases hr : (x2 :: x3 :: rest).reverse with _ | ⟨w1, l1⟩
        · exact absurd hr (by simp)
        · rcases l1 with _ | ⟨w2, l2⟩
          · exfalso
            have hl := congrArg List.length hr
            simp at hl
          · rw [List.reverse_cons, hr] at hlast
            simp only [List.cons_append] at hlast
            simpa using hlast
      exact ⟨h1, consecCCW_snoc (x2 :: x3 :: rest) c y z h2 hlast' ht⟩

theorem consec_reverse_of_chain :
    ∀ (S : List Pt), chainCCW S → consecCCW S.reverse
  | [], _ => trivial
  | [_], _ => trivial
  | [_, _], _ => trivial
  | c :: b :: a :: l, h => by
      obtain ⟨h1, h2⟩ := h
      have ih := consec_reverse_of_chain (b :: a :: l) h2
      rw [List.reverse_cons]
      refine consecCCW_snoc _ c a b ih ?_ h1
      unfold lastTwo
      rw [List.reverse_reverse]

/-- The closing turns of the scan's final stack: the strict angular order of
the stack around the pivot makes both wraparound triples counterclockwise. -/
theorem hull_wrap (s0 : Pt) (t' : List Pt) (hlen : 2 ≤ t'.length)
    (hB : List.Pairwise (fun x y => 0 < cross s0 y x) t')
    (hch : chainCCW (t' ++ [s0])) :
    consecCCW ((t' ++ [s0]).reverse ++ ((t' ++ [s0]).reverse).take 2) := by
  -- shape of the hull
  rcases t' with _ | ⟨x, t1⟩
  · simp at hlen
  rcases t1 with _ | ⟨y, t2⟩
  · simp at hlen
  -- hull = s0 :: reverse of the stack part; its head after s0 is the first
  -- pushed point, the stack part's last element
  rcases hrev : (x :: y :: t2).reverse with _ | ⟨c1, R⟩
  · exact absurd hrev (by simp)
  have hhull : ((x :: y :: t2) ++ [s0]).reverse = s0 :: c1 :: R := by
    rw [List.reverse_append, hrev]
    rfl
  have heq : x :: y :: t2 = R.reverse ++ [c1] := by
    rw [← List.reverse_reverse (x :: y :: t2), hrev, List.reverse_cons]
  have hc1mem : c1 ∈ y :: t2 := by
    cases hR : R.reverse with
    | nil =>
        rw [hR] at heq
        simp at heq
    | cons r0 R1 =>
        rw [hR] at heq
        have htl : y :: t2 = R1 ++ [c1] := (List.cons.injEq _ _ _ _ ▸ heq).2
        rw [htl]
        simp
  have hrev1 : (s0 :: c1 :: R).reverse = x :: y :: (t2 ++ [s0]) := by
    rw [← hhull, List.reverse_reverse]
    rfl
  have hlast1 : lastTwo (s0 :: c1 :: R) = some (y, x) :=
    lastTwo_of_reverse _ y x (t2 ++ [s0]) hrev1
  have hturn1 : 0 < cross y x s0 := by
    rw [← cross_cyclic]
    exact (List.pairwise_cons.mp hB).1 y (by simp)
  have hrev2 : ((s0 :: c1 :: R) ++ [s0]).reverse = s0 :: x :: (y :: (t2 ++ [s0])) := by
    rw [List.reverse_append, hrev1]
    rfl
  have hlast2 : lastTwo ((s0 :: c1 :: R) ++ [s0]) = some (x, s0) :=
    lastTwo_of_reverse _ x s0 (y :: (t2 ++ [s0])) hrev2
  have hturn2 : 0 < cross x s0 c1 := by
    rw [← cross_cyclic, ← cross_cyclic]
    exact (List.pairwise_cons.mp hB).1 c1 hc1mem
  have hconsec : consecCCW (s0 :: c1 :: R) := by
    rw [← hhull]
    exact consec_reverse_of_chain _ hch
  rw [hhull]
  have htake : (s0 :: c1 :: R).take 2 = [s0, c1] := rfl
  rw [htake]
  have hsplit : (s0 :: c1 :: R) ++ [s0, c1] = ((s0 :: c1 :: R) ++ [s0]) ++ [c1] := by
    simp
  rw [hsplit]
  exact consecCCW_snoc _ c1 x s0
    (consecCCW_snoc _ s0 y x hconsec hlast1 hturn1) hlast2 hturn2

end Imageproc

namespace Imageproc

/-- C1.  The hull returned by `convex_hull` is convex and counterclockwise:
with at least 3 vertices, every consecutive vertex triple — the two
wraparound triples through the first vertex included — is a strict
counterclockwise turn of the program's orientation test.  (Appending the
hull's first two vertices makes the two wraparound triples consecutive.) -/
theorem convex_hull_convex (points : List Pt)
    (h3 : 3 ≤ (convex_hull points).length) :
    consecCCW (convex_hull points ++ (convex_hull points).take 2) := by
  match points with
  | [] => simp [convex_hull] at h3
  | p0 :: rest =>
      have hhull : convex_hull (p0 :: rest) =
          ((sortPoints (findStart 1 (0, p0) rest).2
              (removeStart (p0 :: rest) (findStart 1 (0, p0) rest).1)).foldl scanStep
            [(findStart 1 (0, p0) rest).2]).reverse := rfl
      obtain ⟨hminl, hminb⟩ := findStart_min rest 1 (0, p0)
      have hupAll : ∀ q ∈ p0 :: rest, upper (findStart 1 (0, p0) rest).2 q := by
        intro q hq
        rcases List.mem_cons.mp hq with rfl | hq'
        · exact hminb
        · exact hminl q hq'
      have hupRem : ∀ q ∈ removeStart (p0 :: rest) (findStart 1 (0, p0) rest).1,
          upper (findStart 1 (0, p0) rest).2 q := by
        intro q hq
        exact hupAll q (removeStart_subset _ _ q hq)
      have hupSorted : ∀ q ∈ sortPoints (findStart 1 (0, p0) rest).2
          (removeStart (p0 :: rest) (findStart 1 (0, p0) rest).1),
          upper (findStart 1 (0, p0) rest).2 q := by
        intro q hq
        exact hupRem q ((sortPoints_perm _ _).mem_iff.mp hq)
      have hsorted := pairwise_sortPoints (findStart 1 (0, p0) rest).2
        (removeStart (p0 :: rest) (findStart 1 (0, p0) rest).1) hupRem
      obtain ⟨t', he, hB, hch⟩ := scan_fold_inv (findStart 1 (0, p0) rest).2
        (sortPoints (findStart 1 (0, p0) rest).2
          (removeStart (p0 :: rest) (findStart 1 (0, p0) rest).1)) []
        hsorted hupSorted (by simp) (by simp) List.Pairwise.nil trivial
      have he' : (sortPoints (findStart 1 (0, p0) rest).2
          (removeStart (p0 :: rest) (findStart 1 (0, p0) rest).1)).foldl scanStep
            [(findStart 1 (0, p0) rest).2] = t' ++ [(findStart 1 (0, p0) rest).2] := he
      rw [hhull, he']
      have hlen : 2 ≤ t'.length := by
        rw [hhull, he'] at h3
        simp at h3
        omega
      exact hull_wrap (findStart 1 (0, p0) rest).2 t' hlen hB hch

/-- Witness for C1: the repository's own star test case, whose hull has 5
vertices. -/
theorem convex_hull_convex_witness :
    consecCCW (convex_hull
        [Pt.mk 100 20, Pt.mk 90 35, Pt.mk 60 25, Pt.mk 90 40, Pt.mk 80 55,
         Pt.mk 101 50, Pt.mk 130 60, Pt.mk 115 45, Pt.mk 140 30, Pt.mk 120 35]
      ++ (convex_hull
        [Pt.mk 100 20, Pt.mk 90 35, Pt.mk 60 25, Pt.mk 90 40, Pt.mk 80 55,
         Pt.mk 101 50, Pt.mk 130 60, Pt.mk 115 45, Pt.mk 140 30, Pt.mk 120 35]).take 2) :=
  convex_hull_convex _ (by decide)

end Imageproc

namespace Imageproc

/-! ## Containment: pointwise algebraic lemmas

The scan keeps every already-processed point weakly to the left of every
directed edge of the stack, read bottom-up.  The lemmas of this section are
the per-edge steps of that invariant, phrased over the integer cross
products of the embedding. -/

/-- Dot product of the vectors `a - o` and `b - o`. -/
def dotAt (o a b : Pt) : ℤ :=
  (a.x - o.x) * (b.x - o.x) + (a.y - o.y) * (b.y - o.y)

/-- Membership in the closed segment from `a` to `b`: collinear with it,
with the projection parameter between the endpoints. -/
def onSegment (a b q : Pt) : Prop :=
  cross a b q = 0 ∧ 0 ≤ dotAt a q b ∧ dotAt a q b ≤ distSq a b

theorem Rle_weak (s0 a b : Pt) (h : Rle s0 a b) : 0 ≤ cross s0 a b := by
  rcases h with h | ⟨h, _⟩
  · exact h.le
  · exact h.ge

theorem Rle_refl (s0 a : Pt) : Rle s0 a a :=
  Or.inr ⟨cross_self_right s0 a, le_refl _⟩

theorem cross_base_right (o a : Pt) : cross o a o = 0 := by
  unfold cross; ring

theorem eq_coords_of_distSq_zero (s0 b : Pt) (h : distSq s0 b = 0) :
    b.x = s0.x ∧ b.y = s0.y := by
  unfold distSq at h
  have hx : (s0.x - b.x) ^ 2 = 0 :=
    le_antisymm (by linarith [sq_nonneg (s0.y - b.y)]) (sq_nonneg _)
  have hy : (s0.y - b.y) ^ 2 = 0 :=
    le_antisymm (by linarith [sq_nonneg (s0.x - b.x)]) (sq_nonneg _)
  have hx' := sq_eq_zero_iff.mp hx
  have hy' := sq_eq_zero_iff.mp hy
  omega

/-- Mirror of `cross_mono_of_ray`: a strictly clockwise position only moves
further clockwise along the outward pivot ray. -/
theorem cross_mono_of_ray_neg (s0 a b c : Pt)
    (hb : upper s0 b) (hc : upper s0 c)
    (hcol : cross s0 b c = 0) (hd : distSq s0 b ≤ distSq s0 c)
    (hK : cross s0 a b < 0) :
    cross s0 a c ≤ cross s0 a b := by
  have hxid : cross s0 a b * (c.x - s0.x) = cross s0 a c * (b.x - s0.x) := by
    have h := cramer_x s0 a b c
    rw [hcol] at h
    linarith
  have hyid : cross s0 a b * (c.y - s0.y) = cross s0 a c * (b.y - s0.y) := by
    have h := cramer_y s0 a b c
    rw [hcol] at h
    linarith
  have hnormb : 0 < (b.x - s0.x) ^ 2 + (b.y - s0.y) ^ 2 := by
    rcases lt_or_eq_of_le (by positivity : (0:ℤ) ≤ (b.x - s0.x) ^ 2 + (b.y - s0.y) ^ 2)
      with h | h
    · exact h
    · exfalso
      have hx0 : b.x - s0.x = 0 := by nlinarith [sq_nonneg (b.x - s0.x), sq_nonneg (b.y - s0.y)]
      have hy0 : b.y - s0.y = 0 := by nlinarith [sq_nonneg (b.x - s0.x), sq_nonneg (b.y - s0.y)]
      have hz : cross s0 a b = 0 := by
        unfold cross
        linear_combination (a.x - s0.x) * hy0 - (a.y - s0.y) * hx0
      omega
  have hsq : cross s0 a b ^ 2 * ((c.x - s0.x) ^ 2 + (c.y - s0.y) ^ 2)
      = cross s0 a c ^ 2 * ((b.x - s0.x) ^ 2 + (b.y - s0.y) ^ 2) := by
    linear_combination (cross s0 a b * (c.x - s0.x) + cross s0 a c * (b.x - s0.x)) * hxid
      + (cross s0 a b * (c.y - s0.y) + cross s0 a c * (b.y - s0.y)) * hyid
  have hdot : cross s0 a b * ((b.x - s0.x) * (c.x - s0.x) + (b.y - s0.y) * (c.y - s0.y))
      = cross s0 a c * ((b.x - s0.x) ^ 2 + (b.y - s0.y) ^ 2) := by
    linear_combination (b.x - s0.x) * hxid + (b.y - s0.y) * hyid
  have hdotpos := dot_nonneg_of_collinear s0 b c hb hc hcol
  have hM0 : cross s0 a c ≤ 0 := by
    nlinarith [mul_nonneg (neg_nonneg.mpr hK.le) hdotpos, hdot, hnormb]
  have hdb : (b.x - s0.x) ^ 2 + (b.y - s0.y) ^ 2 ≤ (c.x - s0.x) ^ 2 + (c.y - s0.y) ^ 2 := by
    rw [distSq_comm_coords, distSq_comm_coords] at hd
    exact hd
  have hsq2 : cross s0 a b ^ 2 ≤ cross s0 a c ^ 2 := by
    nlinarith [sq_nonneg (cross s0 a b)]
  nlinarith [hM0, hsq2, hK, sq_nonneg (cross s0 a b + cross s0 a c)]

/-- A processed point collinear with the stack top and no farther from the
pivot stays weakly left of the edge from that top to any later point that is
weakly after the top. -/
theorem cover_colnear (s0 b p q : Pt)
    (hb : upper s0 b) (hq : upper s0 q)
    (hcol : cross s0 b q = 0) (hd : distSq s0 q ≤ distSq s0 b)
    (hbp : 0 ≤ cross s0 b p) :
    0 ≤ cross b p q := by
  have hid : cross b p q = cross s0 p q + cross s0 b p - cross s0 b q := by
    unfold cross; ring
  rcases le_or_lt 0 (cross s0 p q) with hpq | hpq
  · rw [hid, hcol]
    linarith
  · have hqb : cross s0 q b = 0 := by
      rw [cross_antisym s0 q b, hcol]
      ring
    have h2 : cross s0 p b ≤ cross s0 p q :=
      cross_mono_of_ray_neg s0 p q b hq hb hqb hd hpq
    have h3 : cross s0 p b = -cross s0 b p := cross_antisym s0 p b
    rw [hid, hcol]
    linarith

/-- A processed point weakly before the top of the stack, covered by the
bottom edge from the pivot to that top, is weakly left of the new edge from
the top to the incoming point. -/
theorem cover_push_bottom (s0 b p q : Pt)
    (hb : upper s0 b) (hq : upper s0 q)
    (hcov : 0 ≤ cross s0 b q) (hqb : Rle s0 q b) (hbp : Rle s0 b p) :
    0 ≤ cross b p q := by
  rcases hqb with hstrict | ⟨hcol, hd⟩
  · exfalso
    have h := cross_antisym s0 q b
    linarith
  · exact cover_colnear s0 b p q hb hq (by rw [cross_antisym s0 b q, hcol]; ring) hd
      (Rle_weak s0 b p hbp)

/-- Popping under the incoming point carries the virtual-edge bound one
level down: what was left of the edge from the popped top and left of the
edge from that top to the incoming point is left of the edge from the point
below it to the incoming point. -/
theorem cover_step_pop (a b p q : Pt)
    (htrig : cross a b p ≤ 0) (hcov : 0 ≤ cross a b q) (hvirt : 0 ≤ cross b p q) :
    0 ≤ cross a p q := by
  have hid : cross a p q = cross b p q - cross a b p + cross a b q := by
    unfold cross; ring
  linarith

/-- Popping the last stack point above the pivot: the surviving cover is the
edge out of the pivot to the incoming point. -/
theorem cover_step_bottom (s0 b p q : Pt)
    (hb : upper s0 b) (hp : upper s0 p)
    (hRbp : Rle s0 b p) (htrig : cross s0 b p ≤ 0)
    (hvirt : 0 ≤ cross b p q) (hcov : 0 ≤ cross s0 b q) :
    0 ≤ cross s0 p q := by
  rcases hRbp with hstrict | ⟨hcol, hd⟩
  · linarith
  · rcases eq_or_lt_of_le (by unfold distSq; positivity : (0:ℤ) ≤ distSq s0 b) with hb0 | hb0
    · obtain ⟨hbx, hby⟩ := eq_coords_of_distSq_zero s0 b hb0.symm
      have hbq : cross b p q = cross s0 p q := by
        unfold cross
        rw [hbx, hby]
      linarith
    · have hdot := dot_nonneg_of_collinear s0 b p hb hp hcol
      have hdot' : 0 ≤ dotAt s0 b p := by
        unfold dotAt
        exact hdot
      have h0 : cross s0 b p = 0 := hcol
      have hid : cross s0 p q * distSq s0 b = cross s0 b q * dotAt s0 b p := by
        unfold cross at h0
        unfold cross distSq dotAt
        linear_combination (-((b.x - s0.x) * (q.x - s0.x) + (b.y - s0.y) * (q.y - s0.y))) * h0
      have hprod : 0 ≤ cross s0 p q * distSq s0 b := by
        rw [hid]
        exact mul_nonneg hcov hdot'
      nlinarith [hprod, hb0]

/-- Descent of the processed-point bound through one pop: a processed point
is weakly before the support point of the pop, or already weakly left of the
virtual edge from that support point to the incoming point. -/
theorem cover_desc (s0 x y p q : Pt)
    (htrig : cross x y p ≤ 0) (hcov : 0 ≤ cross x y q)
    (hB : 0 < cross s0 x y) (hxp : 0 ≤ cross s0 x p) :
    Rle s0 q x ∨ 0 ≤ cross x p q := by
  rcases lt_or_le (cross s0 x q) 0 with hxq | hxq
  · left
    left
    have h := cross_antisym s0 q x
    linarith
  · right
    have hid : cross x p q * cross s0 x y
        = (-cross x y p) * cross s0 x q + cross x y q * cross s0 x p := by
      unfold cross; ring
    nlinarith [hid, mul_nonneg (neg_nonneg.mpr htrig) hxq, mul_nonneg hcov hxp, hB]

/-- When the pop loop exits with a strict counterclockwise turn, every
processed point weakly before the surviving top is weakly left of the new
edge from that top to the incoming point. -/
theorem cover_push_deep (s0 a b p q : Pt)
    (hb : upper s0 b) (hq : upper s0 q)
    (hB : 0 < cross s0 a b) (hexit : 0 < cross a b p)
    (hcov : 0 ≤ cross a b q) (hqb : Rle s0 q b) (hbp : Rle s0 b p) :
    0 ≤ cross b p q := by
  rcases hqb with hstrict | ⟨hcol, hd⟩
  · have hid : cross b p q * cross s0 a b
        = cross a b p * cross s0 q b + cross a b q * cross s0 b p := by
      unfold cross; ring
    nlinarith [hid, mul_nonneg hexit.le hstrict.le,
      mul_nonneg hcov (Rle_weak s0 b p hbp), hB]
  · exact cover_colnear s0 b p q hb hq (by rw [cross_antisym s0 b q, hcol]; ring) hd
      (Rle_weak s0 b p hbp)

/-- The incoming point, once weakly left of one stack edge, is weakly left
of the edge below it: descent along the chain. -/
theorem cover_lstep (s0 x y z p : Pt)
    (hchain : 0 < cross x y z) (hedge : 0 ≤ cross y z p)
    (hB1 : 0 < cross s0 x y) (hB2 : 0 < cross s0 y z)
    (hyp0 : 0 ≤ cross s0 y p) :
    0 ≤ cross x y p := by
  have hid : cross x y p * cross s0 y z
      = cross x y z * cross s0 y p + cross y z p * cross s0 x y := by
    unfold cross; ring
  nlinarith [hid, mul_nonneg hchain.le hyp0, mul_nonneg hedge hB1.le, hB2]

end Imageproc

namespace Imageproc

/-! ## Containment: the edge-cover invariant -/

/-- Point `q` is weakly left of every edge of the scan stack read bottom-up.
The stack is listed top-first, so for each adjacent pair the directed edge
runs from the later (lower) element to the earlier (higher) one. -/
def edgeCov (q : Pt) : List Pt → Prop
  | u :: v :: rest => 0 ≤ cross v u q ∧ edgeCov q (v :: rest)
  | _ => True

/-- Point `q` is weakly left of the edge between each pair of consecutive
vertices of the list (the open polygon chain, in order). -/
def inEdges (q : Pt) : List Pt → Prop
  | a :: b :: rest => 0 ≤ cross a b q ∧ inEdges q (b :: rest)
  | _ => True

theorem edgeCov_tail (q u : Pt) (l : List Pt) (h : edgeCov q (u :: l)) : edgeCov q l := by
  match l with
  | [] => trivial
  | v :: rest => exact h.2

theorem inEdges_snoc (q x : Pt) :
    ∀ (l : List Pt), inEdges q l →
      (∀ y, l.getLast? = some y → 0 ≤ cross y x q) →
      inEdges q (l ++ [x]) := by
  intro l
  induction l with
  | nil =>
      intro _ _
      trivial
  | cons a l ih =>
      intro h hlast
      cases l with
      | nil =>
          refine ⟨hlast a rfl, trivial⟩
      | cons b l2 =>
          simp only [List.cons_append]
          refine ⟨h.1, ?_⟩
          have h2 := ih h.2 ?_
          · simpa using h2
          · intro y hy
            apply hlast
            rw [List.getLast?_cons_cons]
            exact hy

theorem inEdges_reverse (q : Pt) : ∀ (l : List Pt), edgeCov q l → inEdges q l.reverse := by
  intro l
  induction l with
  | nil =>
      intro _
      trivial
  | cons u l ih =>
      intro h
      rw [List.reverse_cons]
      apply inEdges_snoc q u l.reverse (ih (edgeCov_tail q u l h))
      intro y hy
      cases l with
      | nil => simp at hy
      | cons v l2 =>
          have hv : (v :: l2).reverse.getLast? = some v := by
            rw [List.getLast?_reverse]
            rfl
          rw [hv] at hy
          cases hy
          exact h.1

/-- The pivot itself is weakly left of every stack edge: strictly so for the
edges between sorted points, degenerately for the bottom edge out of the
pivot. -/
theorem edgeCov_pivot (s0 : Pt) :
    ∀ (t : List Pt),
      List.Pairwise (fun x y => 0 < cross s0 y x) t →
      edgeCov s0 (t ++ [s0]) := by
  intro t
  induction t with
  | nil =>
      intro _
      trivial
  | cons y t2 ih =>
      intro hB
      cases t2 with
      | nil =>
          exact ⟨le_of_eq (cross_base_right s0 y).symm, trivial⟩
      | cons z t3 =>
          simp only [List.cons_append]
          refine ⟨?_, ?_⟩
          · have h1 : 0 < cross s0 z y := (List.pairwise_cons.mp hB).1 z (by simp)
            have h2 : cross s0 z y = cross z y s0 := cross_cyclic s0 z y
            linarith
          · have h3 := ih (List.pairwise_cons.mp hB).2
            simpa using h3

/-- After a push, the incoming point is weakly left of every surviving stack
edge: the exit turn gives the top edge, `cover_lstep` descends the chain,
and sortedness gives the bottom edge. -/
theorem edgeCov_below (s0 p : Pt) :
    ∀ (v : List Pt),
      (∀ x ∈ v, Rle s0 x p) →
      List.Pairwise (fun x y => 0 < cross s0 y x) v →
      chainCCW (v ++ [s0]) →
      (∀ y z v2, v = y :: z :: v2 → 0 ≤ cross z y p) →
      edgeCov p (v ++ [s0]) := by
  intro v
  induction v with
  | nil =>
      intro _ _ _ _
      trivial
  | cons y v2 ih =>
      intro hRle hB hch htop
      cases v2 with
      | nil =>
          exact ⟨Rle_weak s0 y p (hRle y (by simp)), trivial⟩
      | cons z v3 =>
          simp only [List.cons_append]
          refine ⟨htop y z v3 rfl, ?_⟩
          have hrec := ih (fun x hx => hRle x (by simp [hx]))
            (List.pairwise_cons.mp hB).2
            (chainCCW_tail (x := y) (l := (z :: v3) ++ [s0]) (by simpa using hch))
            ?_
          · simpa using hrec
          · intro z' w v4 hv
            injection hv with h1 h2
            subst h1
            subst h2
            have hchain : 0 < cross w z y := by
              simp only [List.cons_append] at hch
              exact hch.1
            have hB2 : 0 < cross s0 z y := (List.pairwise_cons.mp hB).1 z (by simp)
            have hB1 : 0 < cross s0 w z :=
              (List.pairwise_cons.mp (List.pairwise_cons.mp hB).2).1 w (by simp)
            exact cover_lstep s0 w z y p hchain (htop y z (w :: v4) rfl) hB1 hB2
              (Rle_weak s0 z p (hRle z (by simp)))

end Imageproc

namespace Imageproc

/-- One scan iteration preserves the edge cover of an already-processed
point `q`: if `q` is weakly left of every old stack edge and weakly before
the old top (or already weakly left of the virtual edge from the head to
`p`), it is weakly left of every edge after popping and pushing `p`. -/
theorem popWhile_cover (s0 p q : Pt) (hp : upper s0 p) (hq : upper s0 q) :
    ∀ (t : List Pt),
      (∀ x ∈ t, upper s0 x) →
      (∀ x ∈ t, Rle s0 x p) →
      List.Pairwise (fun x y => 0 < cross s0 y x) t →
      edgeCov q (t ++ [s0]) →
      (∀ y t2, t = y :: t2 → Rle s0 q y ∨ 0 ≤ cross y p q) →
      t ≠ [] →
      edgeCov q (p :: popWhile p (t ++ [s0])) := by
  intro t
  induction t with
  | nil =>
      intro _ _ _ _ _ hne
      exact absurd rfl hne
  | cons b t2 ih =>
      intro hup hRle hB hcov hD _
      have hDb := hD b t2 rfl
      have hbu : upper s0 b := hup b (by simp)
      have hbp : Rle s0 b p := hRle b (by simp)
      simp only [List.cons_append] at hcov
      rcases ht : t2 ++ [s0] with _ | ⟨a, rest2⟩
      · exact absurd ht (by simp)
      · rw [ht] at hcov
        have hshape : (b :: t2) ++ [s0] = b :: a :: rest2 := by
          rw [List.cons_append, ht]
        rw [hshape, popWhile]
        by_cases hpop : orientation a b p = Orientation.CounterClockwise
        · -- the pop loop exits here: the stack survives and p lands on top
          rw [if_neg (by simp [hpop])]
          rw [orientation_ccw_iff] at hpop
          have hVb : 0 ≤ cross b p q := by
            rcases hDb with hqb | hV
            · cases t2 with
              | nil =>
                  have h : ([s0] : List Pt) = a :: rest2 := by simpa using ht
                  injection h with h1 _
                  apply cover_push_bottom s0 b p q hbu hq ?_ hqb hbp
                  rw [h1]
                  exact hcov.1
              | cons a' t3 =>
                  have h : a' :: (t3 ++ [s0]) = a :: rest2 := by simpa using ht
                  injection h with h1 _
                  have hBab : 0 < cross s0 a b := by
                    rw [← h1]
                    exact (List.pairwise_cons.mp hB).1 a' (by simp)
                  exact cover_push_deep s0 a b p q hbu hq hBab hpop hcov.1 hqb hbp
            · exact hV
          exact ⟨hVb, hcov⟩
        · -- pop b and continue below
          rw [if_pos (by simp [hpop])]
          rw [orientation_ccw_iff] at hpop
          have htrig : cross a b p ≤ 0 := not_lt.mp hpop
          cases t2 with
          | nil =>
              have h : ([s0] : List Pt) = a :: rest2 := by simpa using ht
              injection h with h1 h2
              have hr0 : rest2 = [] := h2.symm
              subst hr0
              rw [← h1] at htrig hcov ⊢
              have hVb : 0 ≤ cross b p q := by
                rcases hDb with hqb | hV
                · exact cover_push_bottom s0 b p q hbu hq hcov.1 hqb hbp
                · exact hV
              exact ⟨cover_step_bottom s0 b p q hbu hp hbp htrig hVb hcov.1, trivial⟩
          | cons a' t3 =>
              have h : a' :: (t3 ++ [s0]) = a :: rest2 := by simpa using ht
              injection h with h1 h2
              have ha0 : a = a' := h1.symm
              subst ha0
              have hr0 : rest2 = t3 ++ [s0] := h2.symm
              subst hr0
              apply ih
              · intro x hx
                exact hup x (by simp [hx])
              · intro x hx
                exact hRle x (by simp [hx])
              · exact (List.pairwise_cons.mp hB).2
              · exact hcov.2
              · intro y t2' hy
                injection hy with hy1 hy2
                subst hy1
                have hBab : 0 < cross s0 a b := (List.pairwise_cons.mp hB).1 a (by simp)
                exact cover_desc s0 a b p q htrig hcov.1 hBab
                  (Rle_weak s0 a p (hRle a (by simp)))
              · simp

end Imageproc

namespace Imageproc

theorem edgeCov_push_self (p : Pt) : ∀ (l : List Pt), edgeCov p l → edgeCov p (p :: l) := by
  intro l h
  cases l with
  | nil => trivial
  | cons v rest => exact ⟨le_of_eq (cross_self_right v p).symm, h⟩

/-- The edge-cover invariant carried over the whole scan: after folding the
sorted points into the stack, every processed point is weakly left of every
stack edge and weakly before the final top. -/
theorem scan_fold_cover (s0 : Pt) :
    ∀ (l t done : List Pt),
      List.Pairwise (Rle s0) l →
      (∀ x ∈ l, upper s0 x) →
      (∀ x ∈ t, upper s0 x) →
      (∀ x ∈ done, upper s0 x) →
      (∀ x ∈ t, ∀ r ∈ l, Rle s0 x r) →
      (∀ x ∈ done, ∀ r ∈ l, Rle s0 x r) →
      List.Pairwise (fun x y => 0 < cross s0 y x) t →
      chainCCW (t ++ [s0]) →
      (∀ x ∈ done, edgeCov x (t ++ [s0])) →
      (∀ y t2, t = y :: t2 → ∀ x ∈ done, Rle s0 x y) →
      (t = [] → done = []) →
      ∃ t', l.foldl scanStep (t ++ [s0]) = t' ++ [s0] ∧
        (∀ x ∈ t', upper s0 x) ∧
        List.Pairwise (fun x y => 0 < cross s0 y x) t' ∧
        chainCCW (t' ++ [s0]) ∧
        (∀ x ∈ done ++ l, edgeCov x (t' ++ [s0])) ∧
        (∀ y t2, t' = y :: t2 → ∀ x ∈ done ++ l, Rle s0 x y) ∧
        (t' = [] → done ++ l = []) := by
  intro l
  induction l with
  | nil =>
      intro t done _ _ h3 _ _ _ hB hch hcov htop hemp
      refine ⟨t, rfl, h3, hB, hch, ?_, ?_, ?_⟩
      · intro x hx
        exact hcov x (by simpa using hx)
      · intro y t2 hy x hx
        exact htop y t2 hy x (by simpa using hx)
      · intro h
        simpa using hemp h
  | cons p l ih =>
      intro t done hsort hupl hupt hupd hRtl hRdl hB hch hcov htop hemp
      rw [List.foldl_cons]
      have hpu : upper s0 p := hupl p (by simp)
      obtain ⟨t1, he, hmem, hBp, hchp⟩ := popWhile_inv s0 p hpu t hupt
        (fun x hx => hRtl x hx p (by simp)) hB hch
      have hstep : scanStep (t ++ [s0]) p = (p :: t1) ++ [s0] := by
        unfold scanStep
        rw [he]
        rfl
      rw [hstep]
      have hupt1 : ∀ x ∈ p :: t1, upper s0 x := by
        intro x hx
        rcases List.mem_cons.mp hx with rfl | hx'
        · exact hpu
        · exact hupt x (hmem x hx')
      have hRt1p : ∀ x ∈ t1, Rle s0 x p := fun x hx => hRtl x (hmem x hx) p (by simp)
      have hcovnew : ∀ x ∈ done ++ [p], edgeCov x ((p :: t1) ++ [s0]) := by
        intro x hx
        rcases List.mem_append.mp hx with hxd | hxp
        · rcases htt : t with _ | ⟨y0, t2⟩
          · exact absurd hxd (by simp [hemp htt])
          · have hres := popWhile_cover s0 p x hpu (hupd x hxd) t hupt
              (fun z hz => hRtl z hz p (by simp)) hB (hcov x hxd)
              (fun y t2' hy => Or.inl (htop y t2' hy x hxd)) (by rw [htt]; simp)
            rw [he] at hres
            exact hres
        · have hxp' : x = p := by simpa using hxp
          subst hxp'
          apply edgeCov_push_self
          apply edgeCov_below s0 x t1 hRt1p (List.pairwise_cons.mp hBp).2
            (chainCCW_tail (x := x) (l := t1 ++ [s0]) (by simpa using hchp))
          intro y z v2 hv
          rw [hv] at hchp
          simp only [List.cons_append] at hchp
          exact hchp.1.le
      have htopnew : ∀ y t2, p :: t1 = y :: t2 → ∀ x ∈ done ++ [p], Rle s0 x y := by
        intro y t2 hy x hx
        injection hy with hy1 _
        subst hy1
        rcases List.mem_append.mp hx with hxd | hxp
        · exact hRdl x hxd p (by simp)
        · have hxp' : x = p := by simpa using hxp
          subst hxp'
          exact Rle_refl s0 x
      obtain ⟨t', he', hupt', hB', hch', hcov', htop', hemp'⟩ := ih (p :: t1) (done ++ [p])
        (List.pairwise_cons.mp hsort).2
        (fun x hx => hupl x (by simp [hx]))
        hupt1
        (by
          intro x hx
          rcases List.mem_append.mp hx with hxd | hxp
          · exact hupd x hxd
          · have hxp' : x = p := by simpa using hxp
            subst hxp'
            exact hpu)
        (by
          intro x hx r hr
          rcases List.mem_cons.mp hx with rfl | hx'
          · exact (List.pairwise_cons.mp hsort).1 r hr
          · exact hRtl x (hmem x hx') r (by simp [hr]))
        (by
          intro x hx r hr
          rcases List.mem_append.mp hx with hxd | hxp
          · exact hRdl x hxd r (by simp [hr])
          · have hxp' : x = p := by simpa using hxp
            subst hxp'
            exact (List.pairwise_cons.mp hsort).1 r hr)
        hBp hchp hcovnew htopnew
        (fun h => absurd h (by simp))
      refine ⟨t', he', hupt', hB', hch', ?_, ?_, ?_⟩
      · intro x hx
        apply hcov' x
        rw [List.append_assoc]
        exact hx
      · intro y t2 hy x hx
        apply htop' y t2 hy x
        rw [List.append_assoc]
        exact hx
      · intro h
        exact absurd (hemp' h) (by simp)

end Imageproc

namespace Imageproc

/-- Generic invariant of the pivot-selection loop: a property holding of the
accumulator and of every scanned point paired with its index holds of the
result. -/
theorem findStart_valid (P : ℕ × Pt → Prop) :
    ∀ (l : List Pt) (k : ℕ) (acc : ℕ × Pt),
      P acc → (∀ (j : ℕ) (h : j < l.length), P (k + j, l.get ⟨j, h⟩)) →
      P (findStart k acc l) := by
  intro l
  induction l with
  | nil =>
      intro k acc hacc _
      exact hacc
  | cons p l ih =>
      intro k acc hacc hl
      rw [findStart]
      apply ih (k + 1)
      · by_cases hc : p.y < acc.2.y ∨ (p.y = acc.2.y ∧ p.x < acc.2.x)
        · rw [if_pos hc]
          have h0 := hl 0 (by simp)
          simpa using h0
        · rw [if_neg hc]
          exact hacc
      · intro j hj
        have hs := hl (j + 1) (by simp only [List.length_cons]; omega)
        have h2 : k + (j + 1) = k + 1 + j := by omega
        rw [h2] at hs
        exact hs

theorem findStart_pos_spec (p0 : Pt) (rest : List Pt) :
    ((findStart 1 (0, p0) rest).1 = 0 ∧ (findStart 1 (0, p0) rest).2 = p0) ∨
      (∃ j, ∃ h : j < rest.length, (findStart 1 (0, p0) rest).1 = j + 1 ∧
        rest.get ⟨j, h⟩ = (findStart 1 (0, p0) rest).2) := by
  apply findStart_valid (fun ip => (ip.1 = 0 ∧ ip.2 = p0) ∨
    (∃ j, ∃ h : j < rest.length, ip.1 = j + 1 ∧ rest.get ⟨j, h⟩ = ip.2))
  · exact Or.inl ⟨rfl, rfl⟩
  · intro j h
    exact Or.inr ⟨j, h, by omega, rfl⟩

theorem mem_set_self : ∀ (l : List Pt) (j : ℕ) (a : Pt), j < l.length → a ∈ l.set j a := by
  intro l
  induction l with
  | nil =>
      intro j a h
      simp at h
  | cons b l ih =>
      intro j a h
      cases j with
      | zero => simp
      | succ j2 =>
          simp only [List.set_cons_succ]
          exact List.mem_cons_of_mem b (ih j2 a (by simp at h; omega))

theorem mem_set_of_ne : ∀ (l : List Pt) (j i : ℕ) (a : Pt) (hi : i < l.length),
    i ≠ j → l.get ⟨i, hi⟩ ∈ l.set j a := by
  intro l
  induction l with
  | nil =>
      intro j i a hi _
      simp at hi
  | cons b l ih =>
      intro j i a hi hne
      cases i with
      | zero =>
          cases j with
          | zero => exact absurd rfl hne
          | succ j2 => simp
      | succ i2 =>
          cases j with
          | zero =>
              simp only [List.set_cons_zero]
              have hi2 : i2 < l.length := by simp at hi; omega
              have hg : (b :: l).get ⟨i2 + 1, hi⟩ = l.get ⟨i2, hi2⟩ := rfl
              rw [hg]
              exact List.mem_cons_of_mem a (List.get_mem l i2 hi2)
          | succ j2 =>
              simp only [List.set_cons_succ]
              exact List.mem_cons_of_mem b (ih j2 i2 a (by simp at hi; omega) (by omega))

/-- Every input point is the selected pivot or a member of the list the scan
actually sorts (the head swapped into the pivot's slot). -/
theorem mem_start_or_removeStart (p0 x : Pt) (rest : List Pt) (hx : x ∈ p0 :: rest) :
    x = (findStart 1 (0, p0) rest).2 ∨
      x ∈ removeStart (p0 :: rest) (findStart 1 (0, p0) rest).1 := by
  rcases findStart_pos_spec p0 rest with ⟨h1, h2⟩ | ⟨j, hj, h1, h2⟩
  · rw [h1, h2]
    rcases List.mem_cons.mp hx with rfl | hx'
    · exact Or.inl rfl
    · exact Or.inr hx'
  · rw [h1]
    rcases List.mem_cons.mp hx with rfl | hx'
    · right
      show x ∈ rest.set j x
      exact mem_set_self rest j x hj
    · obtain ⟨⟨i, hi⟩, hgx⟩ := List.mem_iff_get.mp hx'
      by_cases hij : i = j
      · left
        subst hij
        rw [← h2, ← hgx]
      · right
        show x ∈ rest.set j p0
        rw [← hgx]
        exact mem_set_of_ne rest j i p0 hi hij

end Imageproc

namespace Imageproc

/-- Membership on or inside the polygon described by a vertex list: the
empty polygon contains nothing, a single vertex only itself, two vertices
their closed segment, and a genuine polygon exactly the points weakly left
of every directed edge, the closing edge from the last vertex back to the
first included. -/
def onOrInside (hull : List Pt) (q : Pt) : Prop :=
  match hull with
  | [] => False
  | [a] => q = a
  | [a, b] => onSegment a b q
  | a :: b :: c :: rest =>
      inEdges q (a :: b :: c :: rest) ∧ 0 ≤ cross ((a :: b :: c :: rest).getLastI) a q

/-- A point collinear with a segment endpoint seen from the other endpoint,
and no farther, lies on the closed segment. -/
theorem onSegment_of_col_near (s0 e q : Pt) (he : upper s0 e) (hq : upper s0 q)
    (hcol : cross s0 q e = 0) (hd : distSq s0 q ≤ distSq s0 e) :
    onSegment s0 e q := by
  have hdot0 : 0 ≤ dotAt s0 q e := by
    have h := dot_nonneg_of_collinear s0 q e hq he hcol
    unfold dotAt
    exact h
  refine ⟨?_, hdot0, ?_⟩
  · rw [cross_antisym s0 e q, hcol]
    ring
  · have hlag : dotAt s0 q e ^ 2 + cross s0 q e ^ 2 = distSq s0 q * distSq s0 e := by
      unfold dotAt cross distSq
      ring
    rw [hcol] at hlag
    have hde : 0 ≤ distSq s0 e := by unfold distSq; positivity
    have h2 : dotAt s0 q e ^ 2 ≤ distSq s0 e ^ 2 := by nlinarith [hlag, hd, hde]
    nlinarith [h2, hdot0, hde]

theorem dotAt_self_mid (o b : Pt) : dotAt o o b = 0 := by
  unfold dotAt; ring

theorem distSq_nonneg (a b : Pt) : 0 ≤ distSq a b := by
  unfold distSq; positivity

theorem onSegment_self (a b : Pt) : onSegment a b a :=
  ⟨cross_base_right a b, le_of_eq (dotAt_self_mid a b).symm, by
    rw [dotAt_self_mid]
    exact distSq_nonneg a b⟩

end Imageproc

namespace Imageproc

/-- C2.  Every input point lies on or inside the polygon returned by
`convex_hull`: with at least three hull vertices it is weakly left of every
directed hull edge (the closing edge included) under the program's
orientation sign; degenerate one- and two-point hulls contain the input on
the vertex or the segment. -/
theorem convex_hull_contains (points : List Pt) (q : Pt) (hq : q ∈ points) :
    onOrInside (convex_hull points) q := by
  match points with
  | [] => simp at hq
  | p0 :: rest =>
      have hhull : convex_hull (p0 :: rest) =
          ((sortPoints (findStart 1 (0, p0) rest).2
              (removeStart (p0 :: rest) (findStart 1 (0, p0) rest).1)).foldl scanStep
            [(findStart 1 (0, p0) rest).2]).reverse := rfl
      obtain ⟨hminl, hminb⟩ := findStart_min rest 1 (0, p0)
      have hcover := mem_start_or_removeStart p0 q rest hq
      have hupAll : ∀ x ∈ p0 :: rest, upper (findStart 1 (0, p0) rest).2 x := by
        intro x hx
        rcases List.mem_cons.mp hx with rfl | hx'
        · exact hminb
        · exact hminl x hx'
      have hupq : upper (findStart 1 (0, p0) rest).2 q := hupAll q hq
      have hupRem : ∀ x ∈ removeStart (p0 :: rest) (findStart 1 (0, p0) rest).1,
          upper (findStart 1 (0, p0) rest).2 x := by
        intro x hx
        exact hupAll x (removeStart_subset _ _ x hx)
      have hupSorted : ∀ x ∈ sortPoints (findStart 1 (0, p0) rest).2
          (removeStart (p0 :: rest) (findStart 1 (0, p0) rest).1),
          upper (findStart 1 (0, p0) rest).2 x := by
        intro x hx
        exact hupRem x ((sortPoints_perm _ _).mem_iff.mp hx)
      have hsorted := pairwise_sortPoints (findStart 1 (0, p0) rest).2
        (removeStart (p0 :: rest) (findStart 1 (0, p0) rest).1) hupRem
      obtain ⟨t', he, hupt', hB, hch, hcov, htop, hemp⟩ :=
        scan_fold_cover (findStart 1 (0, p0) rest).2
          (sortPoints (findStart 1 (0, p0) rest).2
            (removeStart (p0 :: rest) (findStart 1 (0, p0) rest).1)) [] []
          hsorted hupSorted
          (by intro x hx; simp at hx) (by intro x hx; simp at hx)
          (by intro x hx; simp at hx) (by intro x hx; simp at hx)
          List.Pairwise.nil trivial
          (by intro x hx; simp at hx)
          (by intro y t2 h; simp at h)
          (fun _ => rfl)
      simp only [List.nil_append] at he hcov htop hemp
      rw [hhull, he]
      have hqs : q = (findStart 1 (0, p0) rest).2 ∨
          q ∈ sortPoints (findStart 1 (0, p0) rest).2
            (removeStart (p0 :: rest) (findStart 1 (0, p0) rest).1) := by
        rcases hcover with h | h
        · exact Or.inl h
        · exact Or.inr ((sortPoints_perm _ _).mem_iff.mpr h)
      rcases t' with _ | ⟨e1, t2⟩
      · -- one-point hull: the pivot alone
        simp only [List.nil_append, List.reverse_cons, List.reverse_nil]
        show q = (findStart 1 (0, p0) rest).2
        rcases hqs with h | h
        · exact h
        · exact absurd h (by simp [hemp rfl])
      · rcases t2 with _ | ⟨e2, t3⟩
        · -- two-point hull: the closed segment from the pivot
          show onSegment (findStart 1 (0, p0) rest).2 e1 q
          rcases hqs with h | h
          · rw [h]
            exact onSegment_self _ e1
          · have h1 : 0 ≤ cross (findStart 1 (0, p0) rest).2 e1 q := (hcov q h).1
            have h2 : Rle (findStart 1 (0, p0) rest).2 q e1 := htop e1 [] rfl q h
            rcases h2 with hstrict | ⟨hcol, hd⟩
            · exfalso
              have ha := cross_antisym (findStart 1 (0, p0) rest).2 q e1
              linarith
            · exact onSegment_of_col_near (findStart 1 (0, p0) rest).2 e1 q
                (hupt' e1 (by simp)) hupq hcol hd
        · -- a genuine polygon with at least three vertices
          have hIE : inEdges q (((e1 :: e2 :: t3) ++ [(findStart 1 (0, p0) rest).2]).reverse) := by
            apply inEdges_reverse
            rcases hqs with h | h
            · rw [h]
              exact edgeCov_pivot (findStart 1 (0, p0) rest).2 (e1 :: e2 :: t3) hB
            · exact hcov q h
          have hCL : 0 ≤ cross e1 (findStart 1 (0, p0) rest).2 q := by
            rcases hqs with h | h
            · rw [h]
              exact le_of_eq (cross_self_right e1 (findStart 1 (0, p0) rest).2).symm
            · have h2 := Rle_weak _ _ _ (htop e1 (e2 :: t3) rfl q h)
              rw [cross_cyclic e1 (findStart 1 (0, p0) rest).2 q]
              exact h2
          have hRlen : 2 ≤ ((e1 :: e2 :: t3).reverse).length := by simp
          have hh : ((e1 :: e2 :: t3) ++ [(findStart 1 (0, p0) rest).2]).reverse
              = (findStart 1 (0, p0) rest).2 :: (e1 :: e2 :: t3).reverse := by
            rw [List.reverse_append]
            rfl
          have hlast? : ((e1 :: e2 :: t3) ++
              [(findStart 1 (0, p0) rest).2]).reverse.getLast? = some e1 := by
            rw [List.getLast?_reverse]
            rfl
          rcases hRsh : (e1 :: e2 :: t3).reverse with _ | ⟨r1, rR⟩
          · rw [hRsh] at hRlen
            simp at hRlen
          · rcases rR with _ | ⟨r2, R2⟩
            · rw [hRsh] at hRlen
              simp at hRlen
            · rw [hh, hRsh]
              rw [hh, hRsh] at hIE
              have hlast : ((findStart 1 (0, p0) rest).2 :: r1 :: r2 :: R2).getLastI = e1 := by
                have h3 := hlast?
                rw [hh, hRsh] at h3
                rw [List.getLastI_eq_getLast?, h3]
              exact ⟨hIE, by rw [hlast]; exact hCL⟩

/-- Witness for C2: an interior point of the repository's star test case is
on or inside its hull. -/
theorem convex_hull_contains_witness :
    Pt.mk 90 35 ∈ [Pt.mk 100 20, Pt.mk 90 35, Pt.mk 60 25, Pt.mk 90 40, Pt.mk 80 55,
        Pt.mk 101 50, Pt.mk 130 60, Pt.mk 115 45, Pt.mk 140 30, Pt.mk 120 35] ∧
      onOrInside (convex_hull
        [Pt.mk 100 20, Pt.mk 90 35, Pt.mk 60 25, Pt.mk 90 40, Pt.mk 80 55,
         Pt.mk 101 50, Pt.mk 130 60, Pt.mk 115 45, Pt.mk 140 30, Pt.mk 120 35])
        (Pt.mk 90 35) :=
  ⟨by decide, convex_hull_contains _ _ (by decide)⟩

end Imageproc
